import Mathlib

/-!
# Verification of the intone just-intonation polysynth core

This file gives a shallow embedding of the reference-selection and retuning
core of the `intone` synthesizer (files `polysynth.js`, `base-synth.js`,
`just-intervals.js` and the polysynth application event handlers), and proves
the specified properties about it.

Modelling conventions:
* A sounding frequency is represented symbolically as a pair
  `⟨coeff, cents⟩ : ℚ × ℚ` denoting the real number `coeff · 2^(cents/1200)`.
  All frequency computations performed by the source are either
  multiplications by exact rational just-intonation ratios (acting on
  `coeff`) or multiplications by `2^(c/1200)` for pitch bend and the
  equal-temperament anchor (acting on `cents`), so this representation is
  exact and fully computable.
* JavaScript object identity of `Voice` instances is replaced by the stable
  index of the voice in the fixed pool array (`this.voices`), which is how
  the source itself addresses voices; the pool array is never reordered.
* `Math.random()`-driven choices are modelled by explicit oracle arguments
  (`rand : ℕ`): the source computes `Math.floor(Math.random() * len)`,
  an arbitrary index below `len`, which we model as `rand % len`.
* `audioContext.currentTime` read at `Voice.start` is modelled by a logical
  clock that advances at every note-on.
* Fields of inactive voices are nulled by the source on release; the model
  keeps the stale values.  Every read of those fields in the source is
  guarded by `isActive`, so the two are observationally equal.
-/

namespace Intone

/-! ## Generic list helpers used by the embedding -/

/-- Enumerate a list with indices starting at `k` (mirrors iterating a JS
array while remembering each element's position). -/
def enumFrom {α : Type} (k : ℕ) : List α → List (ℕ × α)
  | [] => []
  | a :: l => (k, a) :: enumFrom (k + 1) l

/-- Enumerate a list with indices starting at `0`. -/
def enumList {α : Type} (l : List α) : List (ℕ × α) := enumFrom 0 l

/-- First index at or after `k` whose element satisfies `p`
(mirrors `Array.prototype.find`, returning the position). -/
def findIdxAux {α : Type} (p : α → Bool) : ℕ → List α → Option ℕ
  | _, [] => none
  | k, a :: l => if p a then some k else findIdxAux p (k + 1) l

/-- First index whose element satisfies `p`. -/
def findIdxL {α : Type} (p : α → Bool) (l : List α) : Option ℕ :=
  findIdxAux p 0 l

/-- Fold mirroring `Array.prototype.reduce` with body
`(best, p) => key(p) < key(best) ? p : best`: the first element of the list
attaining the minimal key (the seed `x` standing for `arr[0]`). -/
def foldMinBy {α β : Type} [LinearOrder β] (f : α → β) (x : α) (l : List α) : α :=
  l.foldl (fun best p => if f p < f best then p else best) x

/-- Fold mirroring the harmonic-center loop
`if (score > bestScore) { best := candidate }`: the first element attaining
the maximal key. -/
def foldMaxBy {α β : Type} [LinearOrder β] (f : α → β) (x : α) (l : List α) : α :=
  l.foldl (fun best p => if f best < f p then p else best) x

/-- Insert into a JS `Set` modelled as a duplicate-free list in insertion
order. -/
def insertUniq {α : Type} [DecidableEq α] (l : List α) (a : α) : List α :=
  if a ∈ l then l else l ++ [a]

/-- Mark the voices at the listed pool indices inactive (mirrors
`voicesToRelease.forEach(v => { v.isActive = false })`); `k` is the index of
the head of the remaining list. -/
def mapAtIdxsFrom {α : Type} (g : α → α) (idxs : List ℕ) (k : ℕ) : List α → List α
  | [] => []
  | a :: l => (if k ∈ idxs then g a else a) :: mapAtIdxsFrom g idxs (k + 1) l

/-! ## JustIntervals (`just-intervals.js`) -/

/-- Just-intonation ratio table `this.intervalRatios` for semitone degrees
0‥12, as (numerator, denominator). Degrees outside the table are absent in
the source (lookup would yield `undefined`); the catch-all is unreachable
because every lookup is performed at `|interval| % 12`. -/
def intervalRatioPair : ℕ → ℤ × ℤ
  | 0 => (1, 1)
  | 1 => (16, 15)
  | 2 => (9, 8)
  | 3 => (6, 5)
  | 4 => (5, 4)
  | 5 => (4, 3)
  | 6 => (45, 32)
  | 7 => (3, 2)
  | 8 => (8, 5)
  | 9 => (5, 3)
  | 10 => (9, 5)
  | 11 => (15, 8)
  | 12 => (2, 1)
  | _ => (1, 1)

/-- Ratio applied to the reference frequency by
`JustIntervals.getJustFrequency` for a signed semitone interval:
`octaves = |interval| div 12`, `degree = |interval| mod 12`,
ratio = table[degree] · 2^octaves, inverted for negative intervals. -/
def ratioFor (interval : ℤ) : ℚ :=
  let absInterval : ℕ := interval.natAbs
  let octaves : ℕ := absInterval / 12
  let semitones : ℕ := absInterval % 12
  let p := intervalRatioPair semitones
  let ratio : ℚ := (p.1 : ℚ) / (p.2 : ℚ) * 2 ^ octaves
  if interval < 0 then 1 / ratio else ratio

/-- Numeric core of `JustIntervals.getJustFrequency`: the reference
frequency times the just ratio of the interval. -/
def getJustFrequencyQ (referenceFreq : ℚ) (referenceMidi targetMidi : ℤ) : ℚ :=
  referenceFreq * ratioFor (targetMidi - referenceMidi)

/-- A sounding frequency, represented symbolically: `⟨coeff, cents⟩`
denotes the real number `coeff · 2^(cents/1200)`. -/
structure Freq where
  coeff : ℚ
  cents : ℚ
  deriving DecidableEq, Inhabited

/-- `JustIntervals.getJustFrequency` on represented frequencies: just
ratios are exact rationals so they act on the rational coefficient. -/
def getJustFrequency (referenceFreq : Freq) (referenceMidi targetMidi : ℤ) : Freq :=
  { coeff := getJustFrequencyQ referenceFreq.coeff referenceMidi targetMidi
    cents := referenceFreq.cents }

/-- `JustIntervals.midiToFrequency`: `440 · 2^((m-69)/12)`, i.e. coefficient
440 at `100·(m-69)` cents. -/
def midiToFrequency (midiNote : ℤ) : Freq :=
  { coeff := 440, cents := ((100 * (midiNote - 69) : ℤ) : ℚ) }

/-- Multiply a represented frequency by `2^(c/1200)` (pitch-bend offset of
`c` cents). -/
def applyCentsOffset (f : Freq) (c : ℚ) : Freq :=
  { f with cents := f.cents + c }

/-! ## Voice (`polysynth.js`, class `Voice`) -/

/-- One pool slot of the polysynth.  Audio-graph fields (oscillator, filter,
envelope, LFO) are external collaborators and carry no core state beyond
what `isActive` already tracks. -/
structure Voice where
  isActive : Bool
  midiNote : ℤ
  frequency : Freq
  noteOnTime : ℕ
  tunedToBassNote : ℤ
  tunedToBassFreq : Freq
  deriving DecidableEq, Inhabited

/-- The state a pool slot has right after construction (all data fields are
`null` in the source; the model uses zeros, which are never observed while
the voice is inactive). -/
def initVoice : Voice :=
  { isActive := false, midiNote := 0, frequency := ⟨0, 0⟩, noteOnTime := 0
    tunedToBassNote := 0, tunedToBassFreq := ⟨0, 0⟩ }

/-! ## Pool scans (`polysynth.js`) -/

/-- Indexed list of currently active voices
(`this.voices.filter(v => v.isActive)` remembering pool positions). -/
def activeIdxPairs (voices : List Voice) : List (ℕ × Voice) :=
  (enumList voices).filter (fun p => p.2.isActive)

/-- `PolySynth.getLowestActiveVoice`: the active voice with minimal
`midiNote` (first such voice in pool order), as a pool index. -/
def getLowestActiveIdx (voices : List Voice) : Option ℕ :=
  match activeIdxPairs voices with
  | [] => none
  | x :: xs => some (foldMinBy (fun p => p.2.midiNote) x xs).1

/-- `PolySynth.getConsonanceScore`: fixed integer weight of the semitone
class of an interval.  JS `%` truncates toward zero, hence the
`((interval % 12) + 12) % 12` folding, modelled with `Int.tmod`. -/
def getConsonanceScore (interval : ℤ) : ℤ :=
  let mod12 : ℤ := (interval.tmod 12 + 12).tmod 12
  match mod12.toNat with
  | 0 => 10
  | 7 => 9
  | 5 => 8
  | 4 => 7
  | 3 => 7
  | 9 => 6
  | 8 => 6
  | 2 => 3
  | 10 => 3
  | 11 => 2
  | 1 => 1
  | 6 => 1
  | _ => 0

/-- Consonance score of a candidate against all *other* active voices
(`if (candidate === other) continue` compares object identity, i.e. pool
index). -/
def scoreAgainst (act : List (ℕ × Voice)) (cand : ℕ × Voice) : ℤ :=
  ((act.filter (fun o => decide (o.1 ≠ cand.1))).map
    (fun o => getConsonanceScore (o.2.midiNote - cand.2.midiNote))).sum

/-- `PolySynth.findHarmonicCenter`: among active voices, the first one with
maximal consonance score (`bestScore` starts at `-Infinity`, so the first
candidate always becomes the initial best). -/
def findHarmonicCenter (voices : List Voice) : Option ℕ :=
  match activeIdxPairs voices with
  | [] => none
  | [x] => some x.1
  | x :: xs =>
    let act := x :: xs
    let y := (x.1, scoreAgainst act x)
    let ys := xs.map (fun c => (c.1, scoreAgainst act c))
    some (foldMaxBy (fun p => p.2) y ys).1

/-! ## Synth state (`PolySynth` + inherited `BaseSynth` fields) -/

/-- Complete core state: the `PolySynth` instance fields together with the
`BaseSynth` sustain-pedal fields it inherits.  `keysHeldDown` belongs to
`BaseSynth` and is maintained by the application's note handlers.
Reference and retune modes are the raw strings the source stores.
`currentReferenceVoice` and `sustainedVoices` hold pool indices in place of
JS object references. -/
structure PolySynth where
  voices : List Voice
  clock : ℕ
  pitchBendRange : ℚ
  pitchBendAmount : ℚ
  lastBassFrequency : Option Freq
  lastBassMidiNote : Option ℤ
  referenceMode : String
  currentReferenceVoice : Option ℕ
  retuneMode : String
  retuneSpeed : ℚ
  sustainPedalDown : Bool
  sustainedNotes : List ℤ
  sustainedVoices : List ℕ
  keysHeldDown : List ℤ
  deriving DecidableEq

/-- Constructor state: a fresh pool of `polyphony` idle voices and the
documented defaults (`referenceMode = 'bass'`, `retuneMode = 'static'`,
pitch-bend range 200 cents, retune glide 0.2 s). -/
def initSynth (polyphony : ℕ) : PolySynth :=
  { voices := List.replicate polyphony initVoice
    clock := 0
    pitchBendRange := 200
    pitchBendAmount := 0
    lastBassFrequency := none
    lastBassMidiNote := none
    referenceMode := "bass"
    currentReferenceVoice := none
    retuneMode := "static"
    retuneSpeed := 1 / 5
    sustainPedalDown := false
    sustainedNotes := []
    sustainedVoices := []
    keysHeldDown := [] }

/-! ## Reference selection (`PolySynth.getReferenceVoice`) -/

/-- Random-mode selection of a fresh reference: uniformly pick one active
voice (`Math.floor(Math.random() * activeVoices.length)`, modelled by
`rand % length`), store it as sticky; with no active voices clear the
sticky reference.  Returns (selected index, new sticky memory). -/
def pickRandomRef (voices : List Voice) (rand : ℕ) : Option ℕ × Option ℕ :=
  let act := activeIdxPairs voices
  match act with
  | [] => (none, none)
  | _ :: _ =>
    let j := (act.getD (rand % act.length) (0, default)).1
    (some j, some j)

/-- Pure core of `PolySynth.getReferenceVoice`: given the pool, the mode
string and the sticky memory, return the selected pool index and the new
sticky memory.  Unknown mode strings fall through to the lowest-note
fallback at the end of the source function. -/
def selectReference (voices : List Voice) (mode : String) (sticky : Option ℕ)
    (rand : ℕ) : Option ℕ × Option ℕ :=
  if mode = "bass" then (getLowestActiveIdx voices, sticky)
  else if mode = "random" then
    match sticky with
    | some i =>
      if (voices.getD i default).isActive then (some i, some i)
      else pickRandomRef voices rand
    | none => pickRandomRef voices rand
  else if mode = "lattice" then
    match sticky with
    | some i =>
      if (voices.getD i default).isActive then (some i, some i)
      else (findHarmonicCenter voices, findHarmonicCenter voices)
    | none => (findHarmonicCenter voices, findHarmonicCenter voices)
  else (getLowestActiveIdx voices, sticky)

/-- `PolySynth.getReferenceVoice` as a state transformer: uses and updates
`this.currentReferenceVoice`. -/
def getReferenceVoice (s : PolySynth) (rand : ℕ) : Option ℕ × PolySynth :=
  let r := selectReference s.voices s.referenceMode s.currentReferenceVoice rand
  (r.1, { s with currentReferenceVoice := r.2 })

/-- `PolySynth.getReferenceFrequencyWithBend`: the reference voice's
frequency multiplied by `2^(centsOffset/1200)` where
`centsOffset = pitchBendAmount · pitchBendRange`. -/
def getReferenceFrequencyWithBend (s : PolySynth) (rand : ℕ) :
    Option Freq × PolySynth :=
  let r := getReferenceVoice s rand
  match r.1 with
  | none => (none, r.2)
  | some i =>
    (some (applyCentsOffset (r.2.voices.getD i default).frequency
      (r.2.pitchBendAmount * r.2.pitchBendRange)), r.2)

/-! ## Voice allocation (`PolySynth.allocateVoice`) -/

/-- `PolySynth.allocateVoice`: (1) retrigger the active voice already
playing this note, else (2) take the first idle voice, else (3) steal the
voice with the smallest `noteOnTime` (reduce over the whole pool, which is
entirely active in that branch), reporting its note as stolen.  The empty
pool would make the source's `reduce` throw; the model returns a junk
answer there. -/
def allocateVoice (voices : List Voice) (midiNote : ℤ) : ℕ × Option ℤ :=
  match findIdxL (fun v => v.isActive && decide (v.midiNote = midiNote)) voices with
  | some i => (i, none)
  | none =>
    match findIdxL (fun v => !v.isActive) voices with
    | some i => (i, none)
    | none =>
      match enumList voices with
      | [] => (0, none)
      | x :: xs =>
        let oldest := foldMinBy (fun p => p.2.noteOnTime) x xs
        (oldest.1, some oldest.2.midiNote)

/-! ## Note-on (`PolySynth.noteOn`) -/

/-- Result record of `PolySynth.noteOn` (the fields the core computes;
UI-only name strings omitted). -/
structure NoteOnResult where
  midiNote : ℤ
  frequency : Freq
  voiceIdx : ℕ
  usedStoredReference : Bool
  stolenNote : Option ℤ
  activeVoices : ℕ
  deriving DecidableEq

/-- Number of active voices in the pool. -/
def countActive (voices : List Voice) : ℕ :=
  (voices.filter (fun v => v.isActive)).length

/-- `Voice.start` on the pool slot `vi`: record note, frequency, the
current time, and which reference the voice was tuned against. -/
def startVoiceAt (s : PolySynth) (vi : ℕ) (n : ℤ) (freq : Freq) (bn : ℤ)
    (bf : Freq) : PolySynth :=
  { s with
    voices := s.voices.set vi
      { isActive := true, midiNote := n, frequency := freq
        noteOnTime := s.clock, tunedToBassNote := bn, tunedToBassFreq := bf }
    clock := s.clock + 1 }

/-- `PolySynth.noteOn`: choose the reference, derive the new note's
frequency (just intonation from the live reference; else from the stored
last-reference memory; else equal temperament), allocate a voice and start
it. -/
def noteOn (s : PolySynth) (rand : ℕ) (n : ℤ) (_velocity : ℤ) :
    PolySynth × NoteOnResult :=
  let r := getReferenceVoice s rand
  match r.1 with
  | none =>
    let s1 := r.2
    let fu : Freq × Bool :=
      match s1.lastBassFrequency, s1.lastBassMidiNote with
      | some f, some ln => (if n = ln then f else getJustFrequency f ln n, true)
      | _, _ => (midiToFrequency n, false)
    let s2 := { s1 with lastBassFrequency := some fu.1, lastBassMidiNote := some n }
    let al := allocateVoice s2.voices n
    let s3 := startVoiceAt s2 al.1 n fu.1 n fu.1
    (s3, { midiNote := n, frequency := fu.1, voiceIdx := al.1
           usedStoredReference := fu.2, stolenNote := al.2
           activeVoices := countActive s3.voices })
  | some ri =>
    let s1 := r.2
    let rv := s1.voices.getD ri default
    let freq := getJustFrequency rv.frequency rv.midiNote n
    let al := allocateVoice s1.voices n
    let s3 := startVoiceAt s1 al.1 n freq rv.midiNote rv.frequency
    (s3, { midiNote := n, frequency := freq, voiceIdx := al.1
           usedStoredReference := false, stolenNote := al.2
           activeVoices := countActive s3.voices })

/-! ## Retuning (`PolySynth.retuneToNewReference`) -/

/-- Per-voice body of the `PolySynth.retuneToNewReference` loop: every
active voice other than the new reference `rv` gets
`justFrequency(rv.frequency, rv.midiNote, v.midiNote)`.  `Voice.retune`
(which writes `v.frequency`) is only invoked for the known mode strings
`'instant'` and `'smooth'`; the tuning-tracking fields are updated
unconditionally. -/
def retuneVoiceFun (rv : Voice) (mode : String) (v : Voice) : Voice :=
  if v.isActive && decide (v.midiNote ≠ rv.midiNote) then
    { v with
      frequency :=
        if mode = "instant" ∨ mode = "smooth" then
          getJustFrequency rv.frequency rv.midiNote v.midiNote
        else v.frequency
      tunedToBassNote := rv.midiNote
      tunedToBassFreq := rv.frequency }
  else v

/-- Loop of `PolySynth.retuneToNewReference` over the pool, with `rv` the
newly selected reference voice. -/
def retuneToNewReference (s : PolySynth) (rand : ℕ) :
    PolySynth × List (ℤ × Freq) :=
  let r := getReferenceVoice s rand
  match r.1 with
  | none => (r.2, [])
  | some ri =>
    let s1 := r.2
    let rv := s1.voices.getD ri default
    let newVoices := s1.voices.map (retuneVoiceFun rv s1.retuneMode)
    let retuned := (s1.voices.filter
        (fun v => v.isActive && decide (v.midiNote ≠ rv.midiNote))).map
      (fun v => (v.midiNote, getJustFrequency rv.frequency rv.midiNote v.midiNote))
    ({ s1 with voices := newVoices }, retuned)

/-! ## Note release (`PolySynth._releaseNote`, `PolySynth.noteOff`) -/

/-- Pool indices released by `_releaseNote(midiNote, sustainedVoicesToRelease)`:
all active voices with this note, filtered to the sustained voice instances
when a non-empty instance list is supplied (`sustainedVoicesToRelease &&
sustainedVoicesToRelease.length > 0`). -/
def releaseTargets (voices : List Voice) (n : ℤ) (filt : Option (List ℕ)) :
    List ℕ :=
  match filt with
  | some l =>
    if l = [] then
      ((enumList voices).filter
        (fun p => p.2.isActive && decide (p.2.midiNote = n))).map (fun p => p.1)
    else
      ((enumList voices).filter
        (fun p => p.2.isActive && decide (p.2.midiNote = n) &&
          decide (p.1 ∈ l))).map (fun p => p.1)
  | none =>
    ((enumList voices).filter
      (fun p => p.2.isActive && decide (p.2.midiNote = n))).map (fun p => p.1)

/-- First phase of `PolySynth._releaseNote` (everything before the final
retune dispatch): capture the reference memory when the released voices
include the current reference (frequency taken with pitch bend, strictly
before deactivation), mark the voices inactive, and clear the sticky
reference in random/lattice mode.  Returns the updated state together with
the `wasReference` flag (`false` when nothing matched, in which case the
source returns early and the state is untouched). -/
def releaseNotePhase1 (s : PolySynth) (r1 r2 : ℕ) (n : ℤ)
    (filt : Option (List ℕ)) : PolySynth × Bool :=
  let idxs := releaseTargets s.voices n filt
  if idxs = [] then (s, false)
  else
    let r := getReferenceVoice s r1
    let s1 := r.2
    let wasReference : Bool :=
      match r.1 with
      | some ref =>
        idxs.any (fun i => decide ((s1.voices.getD i default).midiNote =
          (s1.voices.getD ref default).midiNote))
      | none => false
    let s2 :=
      if wasReference then
        match r.1 with
        | some ref =>
          let br := getReferenceFrequencyWithBend s1 r2
          match br.1 with
          | some f =>
            let refNote := (br.2.voices.getD ref default).midiNote
            { br.2 with lastBassFrequency := some f
                        lastBassMidiNote := some refNote }
          | none => br.2
        | none => s1
      else s1
    let s3 := { s2 with
      voices := mapAtIdxsFrom (fun v => { v with isActive := false }) idxs 0 s2.voices }
    let s4 :=
      if (s3.referenceMode = "random" ∨ s3.referenceMode = "lattice") ∧
          wasReference = true then
        { s3 with currentReferenceVoice := none }
      else s3
    (s4, wasReference)

/-- `PolySynth._releaseNote`: phase 1 above, then the retune pass when the
released voices included the reference and the retune mode is not
`'static'`. -/
def releaseNote (s : PolySynth) (r1 r2 r3 : ℕ) (n : ℤ)
    (filt : Option (List ℕ)) : PolySynth × List (ℤ × Freq) :=
  let c := releaseNotePhase1 s r1 r2 n filt
  if c.2 = true ∧ c.1.retuneMode ≠ "static" then
    retuneToNewReference c.1 r3
  else (c.1, [])

/-- `PolySynth.noteOff`: release every active voice playing this note. -/
def noteOff (s : PolySynth) (r1 r2 r3 : ℕ) (n : ℤ) :
    PolySynth × List (ℤ × Freq) :=
  releaseNote s r1 r2 r3 n none

/-! ## Mode setters, pitch bend, reset -/

/-- `PolySynth.setReferenceMode`: unknown strings fall back to `'bass'`
with a console warning; switching modes clears the sticky reference. -/
def setReferenceMode (s : PolySynth) (mode : String) : PolySynth :=
  let m := if mode ≠ "bass" ∧ mode ≠ "random" ∧ mode ≠ "lattice"
           then "bass" else mode
  { s with referenceMode := m, currentReferenceVoice := none }

/-- `BaseSynth.setRetuneMode`: stores the string unvalidated. -/
def setRetuneMode (s : PolySynth) (mode : String) : PolySynth :=
  { s with retuneMode := mode }

/-- `PolySynth.applyPitchBend`: stores the normalized amount; the bent
frequency is applied to the oscillators only, never to `voice.frequency`. -/
def applyPitchBend (s : PolySynth) (amount : ℚ) : PolySynth :=
  { s with pitchBendAmount := amount }

/-- `PolySynth.setPitchBendRange`. -/
def setPitchBendRange (s : PolySynth) (cents : ℚ) : PolySynth :=
  { s with pitchBendRange := cents }

/-- `PolySynth.resetReference`: stop all voices, reset pitch bend, clear the
stored last reference and the sticky reference.  The sustain bookkeeping
sets are untouched by the source. -/
def resetReference (s : PolySynth) : PolySynth :=
  { s with
    voices := s.voices.map (fun v => { v with isActive := false })
    pitchBendAmount := 0
    lastBassFrequency := none
    lastBassMidiNote := none
    currentReferenceVoice := none }

/-! ## Sustain pedal (`BaseSynth` + the polysynth app note handlers) -/

/-- `BaseSynth.handleSustainPedalDown`. -/
def handleSustainPedalDown (s : PolySynth) : PolySynth :=
  { s with sustainPedalDown := true }

/-- Loop body of `BaseSynth.handleSustainPedalUp`: release the deferred
notes one by one, passing the captured sustained-voice instance list to
`_releaseNote` each time; `rf k` supplies the random oracles for the `k`-th
iteration. -/
def releaseLoop (rf : ℕ → ℕ × ℕ × ℕ) (voicesToRelease : List ℕ) :
    PolySynth → ℕ → List ℤ → PolySynth × List (ℤ × Freq)
  | s, _, [] => (s, [])
  | s, k, n :: rest =>
    let t := rf k
    let r := releaseNote s t.1 t.2.1 t.2.2 n (some voicesToRelease)
    let r2 := releaseLoop rf voicesToRelease r.1 (k + 1) rest
    (r2.1, r.2 ++ r2.2)

/-- `BaseSynth.handleSustainPedalUp`: release the notes that are sustained
but whose keys are no longer physically held, restricted to the sustained
voice instances; clear both sustained sets. -/
def handleSustainPedalUp (s : PolySynth) (rf : ℕ → ℕ × ℕ × ℕ) :
    PolySynth × List (ℤ × Freq) :=
  let notesToRelease := s.sustainedNotes.filter
    (fun n => !(decide (n ∈ s.keysHeldDown)))
  let voicesToRelease := s.sustainedVoices
  let s1 := { s with sustainPedalDown := false, sustainedNotes := []
                     sustainedVoices := [] }
  releaseLoop rf voicesToRelease s1 0 notesToRelease

/-- Application note-on handler (`polyapp` `handleNoteOn`): record the key
as physically held, then `synth.noteOn`. -/
def handleNoteOn (s : PolySynth) (n : ℤ) (vel : ℤ) (rand : ℕ) :
    PolySynth × NoteOnResult :=
  let s0 := { s with keysHeldDown := insertUniq s.keysHeldDown n }
  noteOn s0 rand n vel

/-- Application note-off handler (`polyapp` `handleNoteOff` +
`BaseSynth.handleNoteOffWithSustain`): un-hold the key; if some voice is
playing the note, either defer it to the sustain sets (pedal down — the
*last* matching voice instance is recorded) or release it now. -/
def handleNoteOff (s : PolySynth) (n : ℤ) (r1 r2 r3 : ℕ) :
    PolySynth × List (ℤ × Freq) :=
  let s0 := { s with keysHeldDown := s.keysHeldDown.erase n }
  let toCheck := (enumList s0.voices).filter
    (fun p => p.2.isActive && decide (p.2.midiNote = n))
  match toCheck.getLast? with
  | none => (s0, [])
  | some p =>
    if s0.sustainPedalDown then
      ({ s0 with sustainedNotes := insertUniq s0.sustainedNotes n
                 sustainedVoices := insertUniq s0.sustainedVoices p.1 }, [])
    else
      releaseNote s0 r1 r2 r3 n none

/-! ## Public events and reachability -/

/-- One externally-triggered operation of the core.  Random oracles for the
internal `Math.random()` draws are part of the event. -/
inductive Event where
  | noteOn (n : ℤ) (vel : ℤ) (rand : ℕ)
  | noteOff (n : ℤ) (r1 r2 r3 : ℕ)
  | pedalDown
  | pedalUp (rf : ℕ → ℕ × ℕ × ℕ)
  | reset
  | setReferenceMode (mode : String)
  | setRetuneMode (mode : String)
  | pitchBend (amount : ℚ)
  | pitchBendRange (cents : ℚ)

/-- State transition of one event (event outputs discarded). -/
def step (s : PolySynth) : Event → PolySynth
  | .noteOn n vel rand => (handleNoteOn s n vel rand).1
  | .noteOff n r1 r2 r3 => (handleNoteOff s n r1 r2 r3).1
  | .pedalDown => handleSustainPedalDown s
  | .pedalUp rf => (handleSustainPedalUp s rf).1
  | .reset => resetReference s
  | .setReferenceMode m => setReferenceMode s m
  | .setRetuneMode m => setRetuneMode s m
  | .pitchBend a => applyPitchBend s a
  | .pitchBendRange c => setPitchBendRange s c

/-- States reachable from a fresh synth with pool size `polyphony` through
the public operations. -/
inductive Reachable (polyphony : ℕ) : PolySynth → Prop where
  | init : Reachable polyphony (initSynth polyphony)
  | step {s : PolySynth} (h : Reachable polyphony s) (e : Event) :
      Reachable polyphony (step s e)

/-! ## Abbreviations and concrete states used in specification statements -/

/-- The voice in pool slot `i` (stale default when out of range). -/
def voiceAt (s : PolySynth) (i : ℕ) : Voice := s.voices.getD i default

/-- An active voice playing note `n`, for concrete selector examples. -/
def demoVoice (n : ℤ) : Voice := { initVoice with isActive := true, midiNote := n }

/-- Fresh default synth, then `noteOn(60)`. -/
def memSynth1 : PolySynth := (handleNoteOn (initSynth 8) 60 100 0).1

/-- … then `noteOff(60)` (all voices now silent, memory populated). -/
def memSynth2 : PolySynth := (handleNoteOff memSynth1 60 0 0 0).1

/-- Fresh synth in Instant retune mode, after `noteOn(60)`, `noteOn(64)`,
`noteOn(67)` (a C major triad tuned 4:5:6 from C). -/
def instSynth3 : PolySynth :=
  (handleNoteOn ((handleNoteOn ((handleNoteOn (setRetuneMode (initSynth 8) "instant")
    60 100 0).1) 64 100 0).1) 67 100 0).1

/-- Fresh synth with the unknown retune mode `'weird'`, after `noteOn(60)`,
`noteOn(62)`, `noteOn(64)`. -/
def weirdSynth3 : PolySynth :=
  (handleNoteOn ((handleNoteOn ((handleNoteOn (setRetuneMode (initSynth 8) "weird")
    60 100 0).1) 62 100 0).1) 64 100 0).1

/-- The sustain scenario `noteOn(60)`, `sustainDown`, `noteOff(60)`
(deferred), `noteOn(60)` (retrigger while pedal held). -/
def pedalSynth4 : PolySynth :=
  [Event.noteOn 60 100 0, Event.pedalDown, Event.noteOff 60 0 0 0,
   Event.noteOn 60 100 0].foldl step (initSynth 8)

/-- The sustain scenario `noteOn(60)`, `sustainDown`, `noteOff(60)`
(deferred) — key 60 no longer held. -/
def pedalSynth3 : PolySynth :=
  [Event.noteOn 60 100 0, Event.pedalDown,
   Event.noteOff 60 0 0 0].foldl step (initSynth 8)

/-- A synth in StickyRandom mode whose sticky reference is the active voice
in slot 0 (concrete input for the stickiness witness). -/
def randSynth : PolySynth :=
  { initSynth 2 with referenceMode := "random", currentReferenceVoice := some 0
                     voices := [demoVoice 60, initVoice] }

/-- Inductive invariant of the reachable synth states.  Note that
`(s.voices.getD i default).isActive = true` forces `i` to be in range,
because the out-of-range default voice is inactive, so no explicit bounds
are needed. -/
structure Inv (s : PolySynth) : Prop where
  notesDistinct : ∀ i j : ℕ, i ≠ j →
    (s.voices.getD i default).isActive = true →
    (s.voices.getD j default).isActive = true →
    (s.voices.getD i default).midiNote ≠ (s.voices.getD j default).midiNote
  timesDistinct : ∀ i j : ℕ, i ≠ j →
    (s.voices.getD i default).isActive = true →
    (s.voices.getD j default).isActive = true →
    (s.voices.getD i default).noteOnTime ≠ (s.voices.getD j default).noteOnTime
  timesLtClock : ∀ i : ℕ, (s.voices.getD i default).isActive = true →
    (s.voices.getD i default).noteOnTime < s.clock
  susNote : ∀ i ∈ s.sustainedVoices,
    (s.voices.getD i default).isActive = true →
    (s.voices.getD i default).midiNote ∈ s.sustainedNotes ∨
    (s.voices.getD i default).midiNote ∈ s.keysHeldDown
  susNonempty : s.sustainedNotes ≠ [] → s.sustainedVoices ≠ []
  pedalClear : s.sustainPedalDown = false →
    s.sustainedNotes = [] ∧ s.sustainedVoices = []

/-! # Theorems

First a toolkit of lemmas about the list helpers, then the claim theorems.
-/

theorem enumFrom_length {α : Type} (k : ℕ) (l : List α) :
    (enumFrom k l).length = l.length := by
  induction l generalizing k with
  | nil => rfl
  | cons a l ih => simpa [enumFrom] using ih (k + 1)

theorem mem_enumFrom {α : Type} [Inhabited α] {l : List α} {k : ℕ} {p : ℕ × α} :
    p ∈ enumFrom k l ↔ ∃ j, j < l.length ∧ p = (k + j, l.getD j default) := by
  induction l generalizing k with
  | nil => simp [enumFrom]
  | cons a l ih =>
    simp only [enumFrom, List.mem_cons, ih]
    constructor
    · rintro (rfl | ⟨j, hj, rfl⟩)
      · exact ⟨0, by simp, by simp⟩
      · refine ⟨j + 1, by simpa using hj, ?_⟩
        have harith : k + 1 + j = k + (j + 1) := by omega
        rw [harith]
        simp
    · rintro ⟨j, hj, rfl⟩
      cases j with
      | zero => exact Or.inl (by simp)
      | succ j =>
        refine Or.inr ⟨j, by simpa using hj, ?_⟩
        have harith : k + (j + 1) = k + 1 + j := by omega
        rw [harith]
        simp

theorem mem_enumList {α : Type} [Inhabited α] {l : List α} {p : ℕ × α} :
    p ∈ enumList l ↔ p.1 < l.length ∧ p.2 = l.getD p.1 default := by
  rw [enumList, mem_enumFrom]
  constructor
  · rintro ⟨j, hj, rfl⟩
    simpa using hj
  · rintro ⟨h1, h2⟩
    exact ⟨p.1, h1, by simpa using congrArg (Prod.mk p.1) h2⟩

theorem getD_mem {α : Type} (d : α) {l : List α} {i : ℕ} (h : i < l.length) :
    l.getD i d ∈ l := by
  rw [List.getD_eq_getElem l d h]
  exact List.getElem_mem h

theorem foldMinBy_cons {α β : Type} [LinearOrder β] (f : α → β) (x a : α)
    (l : List α) :
    foldMinBy f x (a :: l) = foldMinBy f (if f a < f x then a else x) l := rfl

theorem foldMinBy_eq_or_mem {α β : Type} [LinearOrder β] (f : α → β) (x : α)
    (l : List α) : foldMinBy f x l = x ∨ foldMinBy f x l ∈ l := by
  induction l generalizing x with
  | nil => exact Or.inl rfl
  | cons a l ih =>
    rw [foldMinBy_cons]
    rcases ih (if f a < f x then a else x) with h | h
    · rw [h]
      split
      · exact Or.inr (List.mem_cons_self a l)
      · exact Or.inl rfl
    · exact Or.inr (List.mem_cons_of_mem a h)

theorem foldMinBy_le {α β : Type} [LinearOrder β] (f : α → β) (x : α)
    (l : List α) :
    f (foldMinBy f x l) ≤ f x ∧ ∀ a ∈ l, f (foldMinBy f x l) ≤ f a := by
  induction l generalizing x with
  | nil => exact ⟨le_refl _, by simp⟩
  | cons a l ih =>
    have h := ih (if f a < f x then a else x)
    rw [foldMinBy_cons]
    refine ⟨?_, ?_⟩
    · refine le_trans h.1 ?_
      split
      · exact le_of_lt (by assumption)
      · exact le_refl _
    · intro b hb
      rcases List.mem_cons.mp hb with rfl | hb
      · refine le_trans h.1 ?_
        split
        · exact le_refl _
        · exact le_of_not_lt (by assumption)
      · exact h.2 b hb

theorem foldMaxBy_cons {α β : Type} [LinearOrder β] (f : α → β) (x a : α)
    (l : List α) :
    foldMaxBy f x (a :: l) = foldMaxBy f (if f x < f a then a else x) l := rfl

theorem foldMaxBy_eq_or_mem {α β : Type} [LinearOrder β] (f : α → β) (x : α)
    (l : List α) : foldMaxBy f x l = x ∨ foldMaxBy f x l ∈ l := by
  induction l generalizing x with
  | nil => exact Or.inl rfl
  | cons a l ih =>
    rw [foldMaxBy_cons]
    rcases ih (if f x < f a then a else x) with h | h
    · rw [h]
      split
      · exact Or.inr (List.mem_cons_self a l)
      · exact Or.inl rfl
    · exact Or.inr (List.mem_cons_of_mem a h)

theorem foldMaxBy_ge {α β : Type} [LinearOrder β] (f : α → β) (x : α)
    (l : List α) :
    f x ≤ f (foldMaxBy f x l) ∧ ∀ a ∈ l, f a ≤ f (foldMaxBy f x l) := by
  induction l generalizing x with
  | nil => exact ⟨le_refl _, by simp⟩
  | cons a l ih =>
    have h := ih (if f x < f a then a else x)
    rw [foldMaxBy_cons]
    refine ⟨?_, ?_⟩
    · refine le_trans ?_ h.1
      split
      · exact le_of_lt (by assumption)
      · exact le_refl _
    · intro b hb
      rcases List.mem_cons.mp hb with rfl | hb
      · refine le_trans ?_ h.1
        split
        · exact le_refl _
        · exact le_of_not_lt (by assumption)
      · exact h.2 b hb

theorem mem_insertUniq {α : Type} [DecidableEq α] {l : List α} {a b : α} :
    b ∈ insertUniq l a ↔ b = a ∨ b ∈ l := by
  rw [insertUniq]
  split
  · constructor
    · exact Or.inr
    · rintro (rfl | h)
      · assumption
      · exact h
  · simp [or_comm]

theorem mapAtIdxsFrom_length {α : Type} (g : α → α) (idxs : List ℕ) (k : ℕ)
    (l : List α) : (mapAtIdxsFrom g idxs k l).length = l.length := by
  induction l generalizing k with
  | nil => rfl
  | cons a l ih => simpa [mapAtIdxsFrom] using ih (k + 1)

theorem getD_mapAtIdxsFrom {α : Type} (g : α → α) (idxs : List ℕ) (k : ℕ)
    (l : List α) (i : ℕ) (d : α) (h : i < l.length) :
    (mapAtIdxsFrom g idxs k l).getD i d =
      if (k + i) ∈ idxs then g (l.getD i d) else l.getD i d := by
  induction l generalizing k i with
  | nil => simp at h
  | cons a l ih =>
    cases i with
    | zero => simp [mapAtIdxsFrom]
    | succ i =>
      have := ih (k + 1) i (by simpa using h)
      simpa [mapAtIdxsFrom, Nat.add_assoc, Nat.add_comm 1 i] using this

theorem findIdxAux_none {α : Type} {p : α → Bool} {l : List α} {k : ℕ}
    (h : findIdxAux p k l = none) : ∀ a ∈ l, p a = false := by
  induction l generalizing k with
  | nil => simp
  | cons a l ih =>
    rw [findIdxAux] at h
    by_cases hpa : p a = true
    · rw [if_pos hpa] at h
      exact absurd h (by simp)
    · rw [if_neg hpa] at h
      intro b hb
      rcases List.mem_cons.mp hb with rfl | hb
      · simpa using hpa
      · exact ih h b hb

theorem findIdxAux_some {α : Type} [Inhabited α] {p : α → Bool} {l : List α}
    {k i : ℕ} (h : findIdxAux p k l = some i) :
    k ≤ i ∧ i - k < l.length ∧ p (l.getD (i - k) default) = true := by
  induction l generalizing k with
  | nil => simp [findIdxAux] at h
  | cons a l ih =>
    rw [findIdxAux] at h
    by_cases hpa : p a = true
    · rw [if_pos hpa] at h
      cases h
      exact ⟨le_refl _, by simp, by simpa using hpa⟩
    · rw [if_neg hpa] at h
      have h2 := ih h
      have hk : k + 1 ≤ i := h2.1
      have hik : i - k = (i - (k + 1)) + 1 := by omega
      refine ⟨by omega, by rw [hik]; simpa using h2.2.1, ?_⟩
      rw [hik]
      simpa using h2.2.2

theorem findIdxL_some {α : Type} [Inhabited α] {p : α → Bool} {l : List α}
    {i : ℕ} (h : findIdxL p l = some i) :
    i < l.length ∧ p (l.getD i default) = true := by
  have h2 := findIdxAux_some h
  simpa using h2

theorem findIdxL_none {α : Type} {p : α → Bool} {l : List α}
    (h : findIdxL p l = none) : ∀ a ∈ l, p a = false :=
  findIdxAux_none h

/-! ## Interval-table lemmas and claim C6 -/

theorem ratioFor_zero : ratioFor 0 = 1 := by
  norm_num [ratioFor, intervalRatioPair]

/-- C6.  The interval-ratio function satisfies the octave-folding and
inversion laws: for `i ∈ [0,12]`, `ratioFor (i+12) = ratioFor i · 2` and
`ratioFor (-i) = 1 / ratioFor i`; and for every positive frequency `f`,
note `n` and interval `i ∈ [-36,36]`,
`justFrequency(f, n, n+i) / f = ratioFor i` (exactly, hence in particular
within the floating tolerance 1e-9) and `justFrequency(f, n, n) = f`. -/
theorem just_interval_laws :
    (∀ i : ℤ, 0 ≤ i → i ≤ 12 →
      ratioFor (i + 12) = ratioFor i * 2 ∧ ratioFor (-i) = 1 / ratioFor i) ∧
    (∀ (f : ℚ) (n i : ℤ), 0 < f → -36 ≤ i → i ≤ 36 →
      getJustFrequencyQ f n (n + i) / f = ratioFor i ∧
      getJustFrequencyQ f n n = f) := by
  constructor
  · intro i h0 h12
    interval_cases i <;>
      exact ⟨by norm_num [ratioFor, intervalRatioPair],
             by norm_num [ratioFor, intervalRatioPair]⟩
  · intro f n i hf _ _
    have hne : f ≠ 0 := ne_of_gt hf
    constructor
    · rw [getJustFrequencyQ, add_sub_cancel_left, mul_comm,
        mul_div_assoc, div_self hne, mul_one]
    · rw [getJustFrequencyQ, sub_self, ratioFor_zero, mul_one]

/-- Witness for C6 at `i = 7`, `f = 3`, `n = 60`. -/
theorem just_interval_laws_witness :
    ratioFor (7 + 12) = ratioFor 7 * 2 ∧
    getJustFrequencyQ 3 60 (60 + 7) / 3 = ratioFor 7 :=
  ⟨(just_interval_laws.1 7 (by decide) (by decide)).1,
   (just_interval_laws.2 3 60 7 (by decide) (by decide) (by decide)).1⟩

/-! ## Selector lemmas -/

theorem activeIdxPairs_mem {voices : List Voice} {p : ℕ × Voice} :
    p ∈ activeIdxPairs voices ↔
      p.1 < voices.length ∧ p.2 = voices.getD p.1 default ∧
      p.2.isActive = true := by
  rw [activeIdxPairs, List.mem_filter, mem_enumList]
  tauto

theorem getD_inactive_of_all_inactive {voices : List Voice} {i : ℕ}
    (h : ∀ v ∈ voices, v.isActive = false) :
    (voices.getD i default).isActive = false := by
  rcases Nat.lt_or_ge i voices.length with hlt | hge
  · exact h _ (getD_mem default hlt)
  · rw [List.getD_eq_default _ _ hge]
    rfl

theorem activeIdxPairs_eq_nil {voices : List Voice}
    (h : ∀ v ∈ voices, v.isActive = false) : activeIdxPairs voices = [] := by
  rw [activeIdxPairs, List.filter_eq_nil_iff]
  intro p hp
  rcases mem_enumList.mp hp with ⟨hlt, hp2⟩
  have hfalse := h _ (getD_mem default hlt)
  rw [hp2]
  simpa using hfalse

theorem getLowestActiveIdx_some_active {voices : List Voice} {i : ℕ}
    (h : getLowestActiveIdx voices = some i) :
    i < voices.length ∧ (voices.getD i default).isActive = true := by
  rw [getLowestActiveIdx] at h
  rcases hA : activeIdxPairs voices with _ | ⟨x, xs⟩
  · rw [hA] at h
    cases h
  · rw [hA] at h
    have hr := foldMinBy_eq_or_mem (fun p => p.2.midiNote) x xs
    set r := foldMinBy (fun p => p.2.midiNote) x xs with hrdef
    have hmem : r ∈ activeIdxPairs voices := by
      rw [hA]
      rcases hr with h1 | h1
      · rw [h1]; exact List.mem_cons_self x xs
      · exact List.mem_cons_of_mem x h1
    have hprops := activeIdxPairs_mem.mp hmem
    cases h
    exact ⟨hprops.1, by rw [← hprops.2.1]; exact hprops.2.2⟩

theorem findHarmonicCenter_some_active {voices : List Voice} {i : ℕ}
    (h : findHarmonicCenter voices = some i) :
    i < voices.length ∧ (voices.getD i default).isActive = true := by
  rw [findHarmonicCenter] at h
  rcases hA : activeIdxPairs voices with _ | ⟨x, _ | ⟨y, ys⟩⟩ <;> rw [hA] at h
  · cases h
  · cases h
    have hprops := activeIdxPairs_mem.mp (hA ▸ List.mem_cons_self x [])
    exact ⟨hprops.1, by rw [← hprops.2.1]; exact hprops.2.2⟩
  · set act := x :: y :: ys with hact
    set sc := fun c : ℕ × Voice => (c.1, scoreAgainst act c) with hsc
    have hr := foldMaxBy_eq_or_mem (fun p : ℕ × ℤ => p.2) (sc x) ((y :: ys).map sc)
    set r := foldMaxBy (fun p : ℕ × ℤ => p.2) (sc x) ((y :: ys).map sc) with hrdef
    have hc : ∃ c ∈ act, r = sc c := by
      rcases hr with h1 | h1
      · exact ⟨x, List.mem_cons_self x _, h1⟩
      · rcases List.mem_map.mp h1 with ⟨c, hcm, hceq⟩
        exact ⟨c, List.mem_cons_of_mem x hcm, hceq.symm⟩
    rcases hc with ⟨c, hcmem, hceq⟩
    have hprops := activeIdxPairs_mem.mp (hA ▸ hcmem)
    cases h
    have : r.1 = c.1 := by rw [hceq]
    rw [this, ← hprops.2.1]
    exact ⟨hprops.1, hprops.2.2⟩

theorem pickRandomRef_spec {voices : List Voice} {rand : ℕ} :
    pickRandomRef voices rand = (none, none) ∨
    ∃ j, pickRandomRef voices rand = (some j, some j) ∧ j < voices.length ∧
      (voices.getD j default).isActive = true := by
  rcases hA : activeIdxPairs voices with _ | ⟨x, xs⟩
  · left
    rw [pickRandomRef, hA]
  · right
    rw [pickRandomRef, hA]
    have hlen : rand % (x :: xs).length < (x :: xs).length :=
      Nat.mod_lt _ (by simp)
    have hmem : (x :: xs).getD (rand % (x :: xs).length) (0, default) ∈
        activeIdxPairs voices := by
      rw [hA]
      exact getD_mem _ hlen
    have hprops := activeIdxPairs_mem.mp hmem
    exact ⟨_, rfl, hprops.1, by rw [← hprops.2.1]; exact hprops.2.2⟩

theorem selectReference_bass (voices : List Voice) (st : Option ℕ) (r : ℕ) :
    selectReference voices "bass" st r = (getLowestActiveIdx voices, st) := rfl

theorem selectReference_random_sticky (voices : List Voice) (j : ℕ) (r : ℕ) :
    selectReference voices "random" (some j) r =
      if (voices.getD j default).isActive = true then (some j, some j)
      else pickRandomRef voices r := rfl

theorem selectReference_random_fresh (voices : List Voice) (r : ℕ) :
    selectReference voices "random" none r = pickRandomRef voices r := rfl

theorem selectReference_lattice_sticky (voices : List Voice) (j : ℕ) (r : ℕ) :
    selectReference voices "lattice" (some j) r =
      if (voices.getD j default).isActive = true then (some j, some j)
      else (findHarmonicCenter voices, findHarmonicCenter voices) := rfl

theorem selectReference_lattice_fresh (voices : List Voice) (r : ℕ) :
    selectReference voices "lattice" none r =
      (findHarmonicCenter voices, findHarmonicCenter voices) := rfl

theorem selectReference_unknown {mode : String} (hb : mode ≠ "bass")
    (hr : mode ≠ "random") (hl : mode ≠ "lattice") (voices : List Voice)
    (st : Option ℕ) (r : ℕ) :
    selectReference voices mode st r = (getLowestActiveIdx voices, st) := by
  unfold selectReference
  rw [if_neg hb, if_neg hr, if_neg hl]

theorem selectReference_stable {voices : List Voice} {mode : String}
    {st st' : Option ℕ} {r r' : ℕ} {i : ℕ}
    (h : selectReference voices mode st r = (some i, st')) :
    selectReference voices mode st' r' = (some i, st') := by
  by_cases hb : mode = "bass"
  · subst hb
    rw [selectReference_bass] at h ⊢
    rw [Prod.mk.injEq] at h
    rw [Prod.mk.injEq]
    exact ⟨h.1, rfl⟩
  · by_cases hrand : mode = "random"
    · subst hrand
      have hfromPick : ∀ rr, pickRandomRef voices rr = (some i, st') →
          selectReference voices "random" st' r' = (some i, st') := by
        intro rr hp
        rcases @pickRandomRef_spec voices rr with
          hn | ⟨j, hj, _, hact⟩
        · rw [hn, Prod.mk.injEq] at hp
          exact absurd hp.1 (by simp)
        · rw [hj, Prod.mk.injEq] at hp
          obtain ⟨hp1, hp2⟩ := hp
          injection hp1 with hji
          subst hji
          subst hp2
          rw [selectReference_random_sticky, if_pos hact]
      rcases hst : st with _ | j
      · subst hst
        rw [selectReference_random_fresh] at h
        exact hfromPick r h
      · subst hst
        rw [selectReference_random_sticky] at h
        by_cases hact : (voices.getD j default).isActive = true
        · rw [if_pos hact, Prod.mk.injEq] at h
          obtain ⟨h1, h2⟩ := h
          injection h1 with hji
          subst hji
          subst h2
          rw [selectReference_random_sticky, if_pos hact]
        · rw [if_neg hact] at h
          exact hfromPick r h
    · by_cases hlat : mode = "lattice"
      · subst hlat
        have hfromC : findHarmonicCenter voices = some i → st' = some i →
            selectReference voices "lattice" st' r' = (some i, st') := by
          intro hf hst'
          subst hst'
          rw [selectReference_lattice_sticky,
            if_pos (findHarmonicCenter_some_active hf).2]
        rcases hst : st with _ | j
        · subst hst
          rw [selectReference_lattice_fresh, Prod.mk.injEq] at h
          exact hfromC h.1 (h.2.symm.trans h.1)
        · subst hst
          rw [selectReference_lattice_sticky] at h
          by_cases hact : (voices.getD j default).isActive = true
          · rw [if_pos hact, Prod.mk.injEq] at h
            obtain ⟨h1, h2⟩ := h
            injection h1 with hji
            subst hji
            subst h2
            rw [selectReference_lattice_sticky, if_pos hact]
          · rw [if_neg hact, Prod.mk.injEq] at h
            exact hfromC h.1 (h.2.symm.trans h.1)
      · rw [selectReference_unknown hb hrand hlat] at h ⊢
        rw [Prod.mk.injEq] at h
        rw [Prod.mk.injEq]
        exact ⟨h.1, rfl⟩

theorem synth_eta_cur {s : PolySynth} {o : Option ℕ}
    (h : s.currentReferenceVoice = o) :
    { s with currentReferenceVoice := o } = s := by
  cases s
  rw [← h]

theorem getReferenceVoice_eq (s : PolySynth) (r : ℕ) :
    getReferenceVoice s r =
      ((selectReference s.voices s.referenceMode s.currentReferenceVoice r).1,
       { s with currentReferenceVoice :=
          (selectReference s.voices s.referenceMode s.currentReferenceVoice r).2 }) :=
  rfl

theorem getReferenceVoice_state (s : PolySynth) (r : ℕ) :
    (getReferenceVoice s r).2 =
      { s with currentReferenceVoice :=
          (selectReference s.voices s.referenceMode s.currentReferenceVoice r).2 } :=
  rfl

theorem getReferenceVoice_fst (s : PolySynth) (r : ℕ) :
    (getReferenceVoice s r).1 =
      (selectReference s.voices s.referenceMode s.currentReferenceVoice r).1 :=
  rfl

theorem getReferenceVoice_stable {s s1 : PolySynth} {r r' : ℕ} {i : ℕ}
    (h : getReferenceVoice s r = (some i, s1)) :
    getReferenceVoice s1 r' = (some i, s1) := by
  rw [getReferenceVoice, Prod.mk.injEq] at h
  rcases h with ⟨h1, h2⟩
  have hsel : selectReference s.voices s.referenceMode s.currentReferenceVoice r =
      (some i, (selectReference s.voices s.referenceMode s.currentReferenceVoice r).2) := by
    rw [← h1]
  have hstable := @selectReference_stable s.voices s.referenceMode s.currentReferenceVoice _ r r' i hsel
  rw [getReferenceVoice, Prod.mk.injEq]
  rw [← h2]
  constructor
  · rw [show ({ s with currentReferenceVoice :=
        (selectReference s.voices s.referenceMode s.currentReferenceVoice r).2 } :
        PolySynth).voices = s.voices from rfl]
    rw [show ({ s with currentReferenceVoice :=
        (selectReference s.voices s.referenceMode s.currentReferenceVoice r).2 } :
        PolySynth).referenceMode = s.referenceMode from rfl]
    rw [show ({ s with currentReferenceVoice :=
        (selectReference s.voices s.referenceMode s.currentReferenceVoice r).2 } :
        PolySynth).currentReferenceVoice =
        (selectReference s.voices s.referenceMode s.currentReferenceVoice r).2 from rfl]
    rw [hstable]
  · apply synth_eta_cur
    rw [hstable]

/-! ## Permutation helpers for the concrete harmonic-center cases -/

theorem perm_two {α : Type} {y z u w : α} (h : [y, z].Perm [u, w]) :
    (y = u ∧ z = w) ∨ (y = w ∧ z = u) := by
  have hy : y ∈ [u, w] := h.mem_iff.mp (by simp)
  have hy2 : y = u ∨ y = w := by simpa using hy
  rcases hy2 with rfl | rfl
  · left
    refine ⟨rfl, ?_⟩
    have := h.cons_inv
    simpa using List.perm_singleton.mp this
  · right
    refine ⟨rfl, ?_⟩
    have h2 := h.trans (List.Perm.swap y u [])
    have := h2.cons_inv
    simpa using List.perm_singleton.mp this

theorem perm_three {α : Type} {l : List α} {a b c : α} (h : l.Perm [a, b, c]) :
    l = [a, b, c] ∨ l = [a, c, b] ∨ l = [b, a, c] ∨ l = [b, c, a] ∨
    l = [c, a, b] ∨ l = [c, b, a] := by
  have hlen : l.length = 3 := by simpa using h.length_eq
  rcases l with _ | ⟨x, _ | ⟨y, _ | ⟨z, _ | _⟩⟩⟩ <;> simp_all
  case cons.cons.cons.nil =>
    have hx : x = a ∨ x = b ∨ x = c := by
      simpa using h.mem_iff.mp (show x ∈ [x, y, z] by simp)
    rcases hx with rfl | rfl | rfl
    · have htail := h.cons_inv
      rcases perm_two htail with ⟨rfl, rfl⟩ | ⟨rfl, rfl⟩ <;> simp
    · have h2 := h.trans (List.Perm.swap x a [c])
      have htail := h2.cons_inv
      rcases perm_two htail with ⟨rfl, rfl⟩ | ⟨rfl, rfl⟩ <;> simp
    · have h2 := h.trans (((List.Perm.swap x b []).cons a).trans
        (List.Perm.swap x a [b]))
      have htail := h2.cons_inv
      rcases perm_two htail with ⟨rfl, rfl⟩ | ⟨rfl, rfl⟩ <;> simp

/-! ## Harmonic-center maximality -/

theorem findHarmonicCenter_max {voices : List Voice} {i : ℕ}
    (h : findHarmonicCenter voices = some i) :
    ∀ p ∈ activeIdxPairs voices,
      scoreAgainst (activeIdxPairs voices) p ≤
        scoreAgainst (activeIdxPairs voices) (i, voices.getD i default) := by
  rw [findHarmonicCenter] at h
  rcases hA : activeIdxPairs voices with _ | ⟨x, _ | ⟨y, ys⟩⟩ <;> rw [hA] at h
  · cases h
  · injection h with h1
    subst h1
    intro p hp
    rcases List.mem_cons.mp hp with rfl | hfalse
    · have hx := activeIdxPairs_mem.mp
        (show p ∈ activeIdxPairs voices by rw [hA]; exact List.mem_cons_self p [])
      have hpair : (p.1, voices.getD p.1 default) = p := by
        rw [← hx.2.1]
      rw [hpair]
    · cases hfalse
  · injection h with h1
    have hmax := foldMaxBy_ge (fun p : ℕ × ℤ => p.2)
      ((x.1, scoreAgainst (x :: y :: ys) x))
      ((y :: ys).map (fun c => (c.1, scoreAgainst (x :: y :: ys) c)))
    have hr := foldMaxBy_eq_or_mem (fun p : ℕ × ℤ => p.2)
      ((x.1, scoreAgainst (x :: y :: ys) x))
      ((y :: ys).map (fun c => (c.1, scoreAgainst (x :: y :: ys) c)))
    have hc : ∃ c ∈ x :: y :: ys,
        foldMaxBy (fun p : ℕ × ℤ => p.2)
          ((x.1, scoreAgainst (x :: y :: ys) x))
          ((y :: ys).map (fun c => (c.1, scoreAgainst (x :: y :: ys) c))) =
          (c.1, scoreAgainst (x :: y :: ys) c) := by
      rcases hr with h2 | h2
      · exact ⟨x, List.mem_cons_self x _, h2⟩
      · rcases List.mem_map.mp h2 with ⟨c, hcm, hceq⟩
        exact ⟨c, List.mem_cons_of_mem x hcm, hceq.symm⟩
    rcases hc with ⟨c, hcmem, hceq⟩
    have hcprops := activeIdxPairs_mem.mp
      (show c ∈ activeIdxPairs voices by rw [hA]; exact hcmem)
    intro p hp
    have hple : scoreAgainst (x :: y :: ys) p ≤
        (foldMaxBy (fun p : ℕ × ℤ => p.2)
          ((x.1, scoreAgainst (x :: y :: ys) x))
          ((y :: ys).map (fun c => (c.1, scoreAgainst (x :: y :: ys) c)))).2 := by
      rcases List.mem_cons.mp hp with rfl | hp2
      · exact hmax.1
      · exact hmax.2 _ (List.mem_map.mpr ⟨p, hp2, rfl⟩)
    have hi : i = c.1 := by
      rw [← h1, hceq]
    have hpair : ((i, voices.getD i default) : ℕ × Voice) = c := by
      rw [hi, ← hcprops.2.1]
    rw [hpair]
    calc scoreAgainst (x :: y :: ys) p ≤ _ := hple
      _ = scoreAgainst (x :: y :: ys) c := by rw [hceq]

/-- C3.  In HarmonicCenter (lattice) mode with no sticky reference, the
selector returns `findHarmonicCenter`, which (a) returns an active voice
whose consonance score (the sum of the fixed semitone-class weights over
all other active voices) is maximal, (b) trivially returns a sole active
voice, and (c) on the concrete chords: any ordering of active notes
{60,64,67} selects the voice with note 60, and any ordering of {64,67,72}
selects the voice with note 72. -/
theorem harmonic_center_spec :
    (∀ (s : PolySynth) (r : ℕ), s.referenceMode = "lattice" →
      s.currentReferenceVoice = none →
      (getReferenceVoice s r).1 = findHarmonicCenter s.voices) ∧
    (∀ (voices : List Voice) (i : ℕ), findHarmonicCenter voices = some i →
      (voices.getD i default).isActive = true ∧
      ∀ p ∈ activeIdxPairs voices,
        scoreAgainst (activeIdxPairs voices) p ≤
          scoreAgainst (activeIdxPairs voices) (i, voices.getD i default)) ∧
    (∀ (voices : List Voice) (x : ℕ × Voice), activeIdxPairs voices = [x] →
      findHarmonicCenter voices = some x.1) ∧
    (∀ l : List Voice, l.Perm [demoVoice 60, demoVoice 64, demoVoice 67] →
      (findHarmonicCenter l).map (fun i => (l.getD i default).midiNote) =
        some 60) ∧
    (∀ l : List Voice, l.Perm [demoVoice 64, demoVoice 67, demoVoice 72] →
      (findHarmonicCenter l).map (fun i => (l.getD i default).midiNote) =
        some 72) := by
  refine ⟨?_, ?_, ?_, ?_, ?_⟩
  · intro s r hm hc
    rw [getReferenceVoice_fst, hm, hc, selectReference_lattice_fresh]
  · intro voices i h
    exact ⟨(findHarmonicCenter_some_active h).2, findHarmonicCenter_max h⟩
  · intro voices x h
    rw [findHarmonicCenter, h]
  · intro l h
    rcases perm_three h with rfl | rfl | rfl | rfl | rfl | rfl <;> decide
  · intro l h
    rcases perm_three h with rfl | rfl | rfl | rfl | rfl | rfl <;> decide

/-- Witness for C3: the first-inversion order `[64, 67, 60]` still selects
the root 60, and a lattice-mode synth with no sticky reference consults
`findHarmonicCenter`. -/
theorem harmonic_center_spec_witness :
    (findHarmonicCenter [demoVoice 64, demoVoice 67, demoVoice 60]).map
      (fun i => ([demoVoice 64, demoVoice 67, demoVoice 60].getD i
        default).midiNote) = some 60 ∧
    (getReferenceVoice { initSynth 3 with referenceMode := "lattice" } 0).1 =
      findHarmonicCenter (initSynth 3).voices :=
  ⟨harmonic_center_spec.2.2.2.1 [demoVoice 64, demoVoice 67, demoVoice 60]
    (by decide),
   harmonic_center_spec.1 { initSynth 3 with referenceMode := "lattice" } 0
    rfl rfl⟩

/-- C10.  In StickyRandom mode: while the sticky reference voice is still
active, every selector call returns exactly that voice and leaves the
entire state (in particular the sticky memory) unchanged; with zero active
voices the sticky memory is cleared and the selector returns none. -/
theorem sticky_random_stable :
    (∀ (s : PolySynth) (i : ℕ) (r : ℕ), s.referenceMode = "random" →
      s.currentReferenceVoice = some i →
      (s.voices.getD i default).isActive = true →
      getReferenceVoice s r = (some i, s)) ∧
    (∀ (s : PolySynth) (r : ℕ), s.referenceMode = "random" →
      (∀ v ∈ s.voices, v.isActive = false) →
      getReferenceVoice s r = (none, { s with currentReferenceVoice := none })) := by
  constructor
  · intro s i r hm hc hact
    have hsel : selectReference s.voices s.referenceMode
        s.currentReferenceVoice r = (some i, some i) := by
      rw [hm, hc, selectReference_random_sticky, if_pos hact]
    rw [getReferenceVoice_eq, hsel, Prod.mk.injEq]
    exact ⟨rfl, synth_eta_cur hc⟩
  · intro s r hm hall
    have hnil := activeIdxPairs_eq_nil hall
    have hsel : selectReference s.voices s.referenceMode
        s.currentReferenceVoice r = (none, none) := by
      rcases hst : s.currentReferenceVoice with _ | j
      · rw [hm, selectReference_random_fresh, pickRandomRef, hnil]
      · have hj : (s.voices.getD j default).isActive = false :=
          getD_inactive_of_all_inactive hall
        rw [hm, selectReference_random_sticky,
          if_neg (by simp only [hj]; exact Bool.false_ne_true),
          pickRandomRef, hnil]
    rw [getReferenceVoice_eq, hsel]

/-- Witness for C10 on a concrete sticky state and a concrete silent
state. -/
theorem sticky_random_stable_witness :
    getReferenceVoice randSynth 5 = (some 0, randSynth) ∧
    getReferenceVoice { initSynth 2 with referenceMode := "random" } 3 =
      (none, { initSynth 2 with referenceMode := "random"
                                currentReferenceVoice := none }) :=
  ⟨sticky_random_stable.1 randSynth 0 5 rfl rfl (by decide),
   sticky_random_stable.2 { initSynth 2 with referenceMode := "random" } 3
    rfl (by decide)⟩

/-! ## Structural lemmas about note release and retuning -/

theorem getReferenceFrequencyWithBend_snd (s : PolySynth) (r : ℕ) :
    (getReferenceFrequencyWithBend s r).2 = (getReferenceVoice s r).2 := by
  simp only [getReferenceFrequencyWithBend]
  split <;> rfl

theorem getReferenceFrequencyWithBend_of_ref {s s1 : PolySynth} {r r2 ri : ℕ}
    (h : getReferenceVoice s r = (some ri, s1)) :
    getReferenceFrequencyWithBend s1 r2 =
      (some (applyCentsOffset ((s1.voices.getD ri default).frequency)
        (s1.pitchBendAmount * s1.pitchBendRange)), s1) := by
  have hst := @getReferenceVoice_stable s s1 r r2 ri h
  simp only [getReferenceFrequencyWithBend]
  rw [hst]

theorem mapAtIdxsFrom_nil {α : Type} (g : α → α) (k : ℕ) (l : List α) :
    mapAtIdxsFrom g [] k l = l := by
  induction l generalizing k with
  | nil => rfl
  | cons a l ih => simpa [mapAtIdxsFrom] using ih (k + 1)

/-- Every branch of `_releaseNote`'s first phase only updates the voice
pool, the last-reference memory and the sticky reference. -/
theorem releaseNotePhase1_shape (s : PolySynth) (r1 r2 : ℕ) (n : ℤ)
    (filt : Option (List ℕ)) :
    ∃ (vs : List Voice) (lf : Option Freq) (ln : Option ℤ) (cur : Option ℕ)
      (w : Bool),
      releaseNotePhase1 s r1 r2 n filt =
        ({ s with voices := vs, lastBassFrequency := lf, lastBassMidiNote := ln
                  currentReferenceVoice := cur }, w) := by
  simp only [releaseNotePhase1]
  repeat' split
  all_goals
    try simp only [getReferenceFrequencyWithBend_snd, getReferenceVoice_eq]
  all_goals exact ⟨_, _, _, _, _, rfl⟩

theorem releaseNotePhase1_voices (s : PolySynth) (r1 r2 : ℕ) (n : ℤ)
    (filt : Option (List ℕ)) :
    (releaseNotePhase1 s r1 r2 n filt).1.voices =
      mapAtIdxsFrom (fun v => { v with isActive := false })
        (releaseTargets s.voices n filt) 0 s.voices := by
  simp only [releaseNotePhase1]
  split
  case isTrue h => rw [h, mapAtIdxsFrom_nil]
  case isFalse h =>
    repeat' split
    all_goals
      try simp only [getReferenceFrequencyWithBend_snd, getReferenceVoice_eq]

theorem releaseNotePhase1_length (s : PolySynth) (r1 r2 : ℕ) (n : ℤ)
    (filt : Option (List ℕ)) :
    (releaseNotePhase1 s r1 r2 n filt).1.voices.length = s.voices.length := by
  rw [releaseNotePhase1_voices, mapAtIdxsFrom_length]

theorem releaseNotePhase1_getD (s : PolySynth) (r1 r2 : ℕ) (n : ℤ)
    (filt : Option (List ℕ)) (i : ℕ) (h : i < s.voices.length) :
    (releaseNotePhase1 s r1 r2 n filt).1.voices.getD i default =
      if i ∈ releaseTargets s.voices n filt then
        { s.voices.getD i default with isActive := false }
      else s.voices.getD i default := by
  rw [releaseNotePhase1_voices, getD_mapAtIdxsFrom _ _ _ _ _ _ h, Nat.zero_add]

theorem releaseNote_eq_dispatch (s : PolySynth) (r1 r2 r3 : ℕ) (n : ℤ)
    (filt : Option (List ℕ)) :
    releaseNote s r1 r2 r3 n filt =
      if (releaseNotePhase1 s r1 r2 n filt).2 = true ∧
          (releaseNotePhase1 s r1 r2 n filt).1.retuneMode ≠ "static" then
        retuneToNewReference (releaseNotePhase1 s r1 r2 n filt).1 r3
      else ((releaseNotePhase1 s r1 r2 n filt).1, []) := rfl

theorem retuneToNewReference_of_none {s s1 : PolySynth} {r : ℕ}
    (h : getReferenceVoice s r = (none, s1)) :
    retuneToNewReference s r = (s1, []) := by
  simp only [retuneToNewReference]
  rw [h]

theorem retuneToNewReference_of_some {s s1 : PolySynth} {r ri : ℕ}
    (h : getReferenceVoice s r = (some ri, s1)) :
    retuneToNewReference s r =
      ({ s1 with
          voices := s1.voices.map (retuneVoiceFun (s1.voices.getD ri default) s1.retuneMode) },
       (s1.voices.filter (fun v => v.isActive && decide (v.midiNote ≠ (s1.voices.getD ri default).midiNote))).map
         (fun v => (v.midiNote,
           getJustFrequency (s1.voices.getD ri default).frequency
             (s1.voices.getD ri default).midiNote v.midiNote))) := by
  simp only [retuneToNewReference]
  rw [h]

theorem retuneVoiceFun_isActive (rv : Voice) (mode : String) (v : Voice) :
    (retuneVoiceFun rv mode v).isActive = v.isActive := by
  rw [retuneVoiceFun]
  split <;> rfl

theorem retuneVoiceFun_midiNote (rv : Voice) (mode : String) (v : Voice) :
    (retuneVoiceFun rv mode v).midiNote = v.midiNote := by
  rw [retuneVoiceFun]
  split <;> rfl

theorem retuneVoiceFun_noteOnTime (rv : Voice) (mode : String) (v : Voice) :
    (retuneVoiceFun rv mode v).noteOnTime = v.noteOnTime := by
  rw [retuneVoiceFun]
  split <;> rfl

theorem retuneVoiceFun_frequency_of_unknown {mode : String}
    (h1 : mode ≠ "instant") (h2 : mode ≠ "smooth") (rv v : Voice) :
    (retuneVoiceFun rv mode v).frequency = v.frequency := by
  rw [retuneVoiceFun]
  split
  · rw [show ({ v with
        frequency :=
          if mode = "instant" ∨ mode = "smooth" then
            getJustFrequency rv.frequency rv.midiNote v.midiNote
          else v.frequency
        tunedToBassNote := rv.midiNote
        tunedToBassFreq := rv.frequency } : Voice).frequency =
        (if mode = "instant" ∨ mode = "smooth" then
          getJustFrequency rv.frequency rv.midiNote v.midiNote
        else v.frequency) from rfl]
    rw [if_neg]
    rintro (h | h)
    · exact h1 h
    · exact h2 h
  · rfl

theorem retuneVoiceFun_of_cond {mode : String} {rv v : Voice}
    (hact : v.isActive = true) (hne : v.midiNote ≠ rv.midiNote) :
    retuneVoiceFun rv mode v =
      { v with
        frequency :=
          if mode = "instant" ∨ mode = "smooth" then
            getJustFrequency rv.frequency rv.midiNote v.midiNote
          else v.frequency
        tunedToBassNote := rv.midiNote
        tunedToBassFreq := rv.frequency } := by
  rw [retuneVoiceFun, if_pos]
  rw [Bool.and_eq_true, decide_eq_true_eq]
  exact ⟨hact, hne⟩

theorem retuneVoiceFun_of_skip {mode : String} {rv v : Voice}
    (h : ¬(v.isActive = true ∧ v.midiNote ≠ rv.midiNote)) :
    retuneVoiceFun rv mode v = v := by
  rw [retuneVoiceFun, if_neg]
  rw [Bool.and_eq_true, decide_eq_true_eq]
  exact h

theorem getJustFrequency_same (f : Freq) (n : ℤ) :
    getJustFrequency f n n = f := by
  simp [getJustFrequency, getJustFrequencyQ, ratioFor_zero]

/-- Reference-memory capture inside `_releaseNote`: if the released set is
non-empty, a reference voice `ri` is selected, and some released voice
shares its note, then the memory receives the reference frequency with
pitch bend applied, and its note, and the `wasReference` flag is set. -/
theorem releaseNotePhase1_capture {s s1 : PolySynth} {r1 r2 : ℕ} {ri : ℕ}
    {n : ℤ} {filt : Option (List ℕ)}
    (hne : releaseTargets s.voices n filt ≠ [])
    (href : getReferenceVoice s r1 = (some ri, s1))
    (hwas : ∃ j ∈ releaseTargets s.voices n filt,
      (s.voices.getD j default).midiNote = (s.voices.getD ri default).midiNote) :
    (releaseNotePhase1 s r1 r2 n filt).1.lastBassFrequency =
      some (applyCentsOffset ((s.voices.getD ri default).frequency)
        (s.pitchBendAmount * s.pitchBendRange)) ∧
    (releaseNotePhase1 s r1 r2 n filt).1.lastBassMidiNote =
      some ((s.voices.getD ri default).midiNote) ∧
    (releaseNotePhase1 s r1 r2 n filt).2 = true := by
  have hs1 : s1 = (getReferenceVoice s r1).2 := by rw [href]
  have hv : s1.voices = s.voices := by rw [hs1, getReferenceVoice_eq]
  have hpb : s1.pitchBendAmount = s.pitchBendAmount := by
    rw [hs1, getReferenceVoice_eq]
  have hpr : s1.pitchBendRange = s.pitchBendRange := by
    rw [hs1, getReferenceVoice_eq]
  have hbend := @getReferenceFrequencyWithBend_of_ref s s1 r1 r2 ri href
  have hany : (releaseTargets s.voices n filt).any
      (fun i => decide ((s1.voices.getD i default).midiNote =
        (s1.voices.getD ri default).midiNote)) = true := by
    rw [List.any_eq_true]
    rcases hwas with ⟨j, hj1, hj2⟩
    refine ⟨j, hj1, ?_⟩
    rw [decide_eq_true_eq, hv]
    exact hj2
  simp only [releaseNotePhase1]
  rw [if_neg hne, href]
  simp only []
  rw [hany, hbend]
  simp only [eq_self_iff_true, if_true, and_true]
  rw [hv, hpb, hpr]
  refine ⟨?_, ?_⟩ <;> split <;> rfl

/-- The retune pass touches only `voices` (frequencies and tuning-tracking
fields) and possibly the sticky reference. -/
theorem retuneToNewReference_const (s : PolySynth) (r : ℕ) :
    (retuneToNewReference s r).1.lastBassFrequency = s.lastBassFrequency ∧
    (retuneToNewReference s r).1.lastBassMidiNote = s.lastBassMidiNote ∧
    (retuneToNewReference s r).1.clock = s.clock ∧
    (retuneToNewReference s r).1.retuneMode = s.retuneMode ∧
    (retuneToNewReference s r).1.referenceMode = s.referenceMode ∧
    (retuneToNewReference s r).1.sustainPedalDown = s.sustainPedalDown ∧
    (retuneToNewReference s r).1.sustainedNotes = s.sustainedNotes ∧
    (retuneToNewReference s r).1.sustainedVoices = s.sustainedVoices ∧
    (retuneToNewReference s r).1.keysHeldDown = s.keysHeldDown ∧
    (retuneToNewReference s r).1.pitchBendAmount = s.pitchBendAmount ∧
    (retuneToNewReference s r).1.pitchBendRange = s.pitchBendRange := by
  rcases h : getReferenceVoice s r with ⟨o, s1⟩
  have hs1 : s1 = (getReferenceVoice s r).2 := by rw [h]
  rcases o with _ | ri
  · rw [retuneToNewReference_of_none h, hs1, getReferenceVoice_eq]
    exact ⟨rfl, rfl, rfl, rfl, rfl, rfl, rfl, rfl, rfl, rfl, rfl⟩
  · rw [retuneToNewReference_of_some h, hs1, getReferenceVoice_eq]
    exact ⟨rfl, rfl, rfl, rfl, rfl, rfl, rfl, rfl, rfl, rfl, rfl⟩

/-! ## Claim C8: Static retune mode is a no-op on other voices -/

/-- C8.  In Static retune mode a note-off (any note-off, in particular one
that releases the current reference) leaves the `frequency`,
`tunedToBassNote` and `tunedToBassFreq` fields of every voice unchanged and
returns the empty retuned list: no retuning is performed. -/
theorem static_mode_frame :
    ∀ (s : PolySynth) (r1 r2 r3 : ℕ) (n : ℤ) (filt : Option (List ℕ)),
      s.retuneMode = "static" →
      (releaseNote s r1 r2 r3 n filt).2 = [] ∧
      ∀ i : ℕ,
        ((releaseNote s r1 r2 r3 n filt).1.voices.getD i default).frequency =
          (s.voices.getD i default).frequency ∧
        ((releaseNote s r1 r2 r3 n filt).1.voices.getD i default).tunedToBassNote =
          (s.voices.getD i default).tunedToBassNote ∧
        ((releaseNote s r1 r2 r3 n filt).1.voices.getD i default).tunedToBassFreq =
          (s.voices.getD i default).tunedToBassFreq := by
  intro s r1 r2 r3 n filt hstatic
  have hmode : (releaseNotePhase1 s r1 r2 n filt).1.retuneMode = "static" := by
    obtain ⟨vs, lf, ln, cur, w, hsh⟩ := releaseNotePhase1_shape s r1 r2 n filt
    rw [hsh]
    exact hstatic
  have hdisp : releaseNote s r1 r2 r3 n filt =
      ((releaseNotePhase1 s r1 r2 n filt).1, []) := by
    rw [releaseNote_eq_dispatch, if_neg]
    rintro ⟨-, hne2⟩
    exact hne2 hmode
  refine ⟨by rw [hdisp], ?_⟩
  intro i
  rw [hdisp]
  rcases Nat.lt_or_ge i s.voices.length with hlt | hge
  · rw [releaseNotePhase1_getD s r1 r2 n filt i hlt]
    split
    · exact ⟨rfl, rfl, rfl⟩
    · exact ⟨rfl, rfl, rfl⟩
  · have h1 : (releaseNotePhase1 s r1 r2 n filt).1.voices.getD i default =
        default :=
      List.getD_eq_default _ _ (by rw [releaseNotePhase1_length]; exact hge)
    have h2 : s.voices.getD i default = default := List.getD_eq_default _ _ hge
    rw [h1, h2]
    exact ⟨rfl, rfl, rfl⟩

/-- Witness for C8: releasing the reference note 60 of the one-voice state
in the default Static mode returns no retunes and keeps voice 0's
frequency. -/
theorem static_mode_frame_witness :
    (releaseNote memSynth1 0 0 0 60 none).2 = [] ∧
    ((releaseNote memSynth1 0 0 0 60 none).1.voices.getD 0 default).frequency =
      (memSynth1.voices.getD 0 default).frequency := by
  have h := static_mode_frame memSynth1 0 0 0 60 none (by decide)
  exact ⟨h.1, (h.2 0).1⟩

/-! ## Claim C7: unknown mode strings -/

/-- Counterexample to C7 as stated: with the unknown retune-mode string
`'weird'` stored, releasing the reference (notes 60,62,64 sounding,
note-off 60) returns a NON-empty retuned list — Static mode would return
the empty list — so an unknown retune mode does not behave as Static. -/
theorem unknown_retune_mode_cex :
    (setRetuneMode (initSynth 8) "weird").retuneMode = "weird" ∧
    weirdSynth3.retuneMode = "weird" ∧
    (handleNoteOff weirdSynth3 60 0 0 0).2.length = 1 ∧
    (handleNoteOff weirdSynth3 60 0 0 0).2 ≠ [] := by
  refine ⟨rfl, by decide, by decide, by decide⟩

theorem retuneVoiceFun_default (rv : Voice) (mode : String) :
    retuneVoiceFun rv mode default = default := by
  apply retuneVoiceFun_of_skip
  rintro ⟨h, -⟩
  exact absurd h (by decide)

theorem getD_map_voice (f : Voice → Voice) (hf : f default = default)
    (l : List Voice) (i : ℕ) :
    (l.map f).getD i default = f (l.getD i default) := by
  induction l generalizing i with
  | nil => simp [hf]
  | cons a l ih =>
    cases i with
    | zero => rfl
    | succ i => simpa using ih i

/-- C7 (amended).  Unknown mode strings never raise: an unknown
reference-mode string falls back to `'bass'` (clearing the sticky
reference), while an unknown retune-mode string is stored as-is; under an
unknown retune mode a note-off never changes any voice's `frequency` field
(as in Static mode), although — unlike Static — the retune pass still runs
its bookkeeping (see the counterexample's non-empty list). -/
theorem unknown_mode_fallback :
    (∀ (s : PolySynth) (m : String), m ≠ "bass" → m ≠ "random" →
      m ≠ "lattice" →
      setReferenceMode s m =
        { s with referenceMode := "bass", currentReferenceVoice := none }) ∧
    (∀ (s : PolySynth) (m : String),
      setRetuneMode s m = { s with retuneMode := m }) ∧
    (∀ (s : PolySynth) (r1 r2 r3 : ℕ) (n : ℤ) (filt : Option (List ℕ)),
      s.retuneMode ≠ "static" → s.retuneMode ≠ "instant" →
      s.retuneMode ≠ "smooth" →
      ∀ i : ℕ,
        ((releaseNote s r1 r2 r3 n filt).1.voices.getD i default).frequency =
          (s.voices.getD i default).frequency) := by
  refine ⟨?_, ?_, ?_⟩
  · intro s m h1 h2 h3
    unfold setReferenceMode
    rw [if_pos ⟨h1, h2, h3⟩]
  · intro s m
    rfl
  · intro s r1 r2 r3 n filt hst hin hsm
    have hphase := releaseNotePhase1_shape s r1 r2 n filt
    obtain ⟨vs, lf, ln, cur, w, hsh⟩ := hphase
    have hmode : (releaseNotePhase1 s r1 r2 n filt).1.retuneMode =
        s.retuneMode := by
      rw [hsh]
    have hfreq1 : ∀ i : ℕ,
        ((releaseNotePhase1 s r1 r2 n filt).1.voices.getD i default).frequency =
          (s.voices.getD i default).frequency := by
      intro i
      rcases Nat.lt_or_ge i s.voices.length with hlt | hge
      · rw [releaseNotePhase1_getD s r1 r2 n filt i hlt]
        split
        · rfl
        · rfl
      · rw [List.getD_eq_default _ _ (by rw [releaseNotePhase1_length]; exact hge),
          List.getD_eq_default _ _ hge]
    intro i
    rw [releaseNote_eq_dispatch]
    split
    · rcases hgr : getReferenceVoice (releaseNotePhase1 s r1 r2 n filt).1 r3 with
        ⟨o, s1⟩
      have hs1 : s1 = (getReferenceVoice (releaseNotePhase1 s r1 r2 n filt).1 r3).2 := by
        rw [hgr]
      have hs1v : s1.voices = (releaseNotePhase1 s r1 r2 n filt).1.voices := by
        rw [hs1, getReferenceVoice_eq]
      have hs1m : s1.retuneMode = s.retuneMode := by
        rw [hs1, getReferenceVoice_eq]
        exact hmode
      rcases o with _ | ri
      · rw [retuneToNewReference_of_none hgr]
        rw [show s1.voices.getD i default =
            (releaseNotePhase1 s r1 r2 n filt).1.voices.getD i default from by
          rw [hs1v]]
        exact hfreq1 i
      · rw [retuneToNewReference_of_some hgr]
        rw [show ({ s1 with voices := s1.voices.map (retuneVoiceFun (s1.voices.getD ri default) s1.retuneMode) } : PolySynth).voices = s1.voices.map (retuneVoiceFun (s1.voices.getD ri default) s1.retuneMode) from rfl]
        rw [getD_map_voice _ (retuneVoiceFun_default _ _)]
        rw [retuneVoiceFun_frequency_of_unknown
          (by rw [hs1m]; exact hin) (by rw [hs1m]; exact hsm)]
        rw [show s1.voices.getD i default =
            (releaseNotePhase1 s r1 r2 n filt).1.voices.getD i default from by
          rw [hs1v]]
        exact hfreq1 i
    · exact hfreq1 i

/-- Witness for C7 (amended): the unknown reference mode `'xyz'` falls back
to `'bass'`, and the unknown retune mode `'weird'` leaves voice 1's
frequency unchanged across the reference release. -/
theorem unknown_mode_fallback_witness :
    setReferenceMode (initSynth 2) "xyz" =
      { initSynth 2 with referenceMode := "bass"
                         currentReferenceVoice := none } ∧
    ((releaseNote weirdSynth3 0 0 0 60 none).1.voices.getD 1 default).frequency =
      (weirdSynth3.voices.getD 1 default).frequency :=
  ⟨unknown_mode_fallback.1 (initSynth 2) "xyz" (by decide) (by decide)
      (by decide),
   unknown_mode_fallback.2.2 weirdSynth3 0 0 0 60 none (by decide) (by decide)
      (by decide) 1⟩

/-! ## Effect of note release on pool slots -/

theorem act_lt_length {voices : List Voice} {i : ℕ}
    (h : (voices.getD i default).isActive = true) : i < voices.length := by
  by_contra hge
  rw [List.getD_eq_default _ _ (Nat.le_of_not_lt hge)] at h
  exact absurd h (by decide)

theorem mem_enum_filter_map {voices : List Voice} {q : ℕ × Voice → Bool}
    {i : ℕ} :
    i ∈ ((enumList voices).filter q).map (fun p => p.1) ↔
      i < voices.length ∧ q (i, voices.getD i default) = true := by
  rw [List.mem_map]
  constructor
  · rintro ⟨p, hp, rfl⟩
    rw [List.mem_filter] at hp
    rcases mem_enumList.mp hp.1 with ⟨hlt, hsnd⟩
    refine ⟨hlt, ?_⟩
    have hpeta : p = (p.1, voices.getD p.1 default) := by
      rw [← hsnd]
    rw [← hpeta]
    exact hp.2
  · rintro ⟨hlt, hq⟩
    exact ⟨(i, voices.getD i default),
      List.mem_filter.mpr ⟨mem_enumList.mpr ⟨hlt, rfl⟩, hq⟩, rfl⟩

theorem mem_releaseTargets {voices : List Voice} {n : ℤ}
    {filt : Option (List ℕ)} {i : ℕ} :
    i ∈ releaseTargets voices n filt ↔
      ((voices.getD i default).isActive = true ∧
       (voices.getD i default).midiNote = n ∧
       (match filt with
        | none => True
        | some l => l = [] ∨ i ∈ l)) := by
  rcases filt with _ | l
  · rw [releaseTargets, mem_enum_filter_map]
    constructor
    · rintro ⟨-, hq⟩
      rw [Bool.and_eq_true, decide_eq_true_eq] at hq
      exact ⟨hq.1, hq.2, trivial⟩
    · rintro ⟨hact, hnote, -⟩
      refine ⟨act_lt_length hact, ?_⟩
      rw [Bool.and_eq_true, decide_eq_true_eq]
      exact ⟨hact, hnote⟩
  · by_cases hl : l = []
    · subst hl
      rw [releaseTargets, if_pos rfl, mem_enum_filter_map]
      constructor
      · rintro ⟨-, hq⟩
        rw [Bool.and_eq_true, decide_eq_true_eq] at hq
        exact ⟨hq.1, hq.2, Or.inl rfl⟩
      · rintro ⟨hact, hnote, -⟩
        refine ⟨act_lt_length hact, ?_⟩
        rw [Bool.and_eq_true, decide_eq_true_eq]
        exact ⟨hact, hnote⟩
    · rw [releaseTargets, if_neg hl, mem_enum_filter_map]
      constructor
      · rintro ⟨-, hq⟩
        rw [Bool.and_eq_true, Bool.and_eq_true, decide_eq_true_eq,
          decide_eq_true_eq] at hq
        exact ⟨hq.1.1, hq.1.2, Or.inr hq.2⟩
      · rintro ⟨hact, hnote, hmem⟩
        refine ⟨act_lt_length hact, ?_⟩
        rw [Bool.and_eq_true, Bool.and_eq_true, decide_eq_true_eq,
          decide_eq_true_eq]
        rcases hmem with hmem | hmem
        · exact absurd hmem hl
        · exact ⟨⟨hact, hnote⟩, hmem⟩

theorem retuneToNewReference_length (s : PolySynth) (r : ℕ) :
    (retuneToNewReference s r).1.voices.length = s.voices.length := by
  rcases h : getReferenceVoice s r with ⟨o, s1⟩
  have hs1 : s1 = (getReferenceVoice s r).2 := by rw [h]
  rcases o with _ | ri
  · rw [retuneToNewReference_of_none h, hs1, getReferenceVoice_eq]
  · rw [retuneToNewReference_of_some h]
    rw [show ({ s1 with voices := s1.voices.map (retuneVoiceFun (s1.voices.getD ri default) s1.retuneMode) } : PolySynth).voices = s1.voices.map (retuneVoiceFun (s1.voices.getD ri default) s1.retuneMode) from rfl]
    rw [List.length_map, hs1, getReferenceVoice_eq]

theorem retuneToNewReference_getD_pres (s : PolySynth) (r : ℕ) (i : ℕ) :
    ((retuneToNewReference s r).1.voices.getD i default).isActive =
      (s.voices.getD i default).isActive ∧
    ((retuneToNewReference s r).1.voices.getD i default).midiNote =
      (s.voices.getD i default).midiNote ∧
    ((retuneToNewReference s r).1.voices.getD i default).noteOnTime =
      (s.voices.getD i default).noteOnTime := by
  rcases h : getReferenceVoice s r with ⟨o, s1⟩
  have hs1 : s1 = (getReferenceVoice s r).2 := by rw [h]
  have hv : s1.voices = s.voices := by rw [hs1, getReferenceVoice_eq]
  rcases o with _ | ri
  · rw [retuneToNewReference_of_none h]
    rw [show ((s1, ([] : List (ℤ × Freq))).1) = s1 from rfl, hv]
    exact ⟨rfl, rfl, rfl⟩
  · rw [retuneToNewReference_of_some h]
    rw [show ({ s1 with voices := s1.voices.map (retuneVoiceFun (s1.voices.getD ri default) s1.retuneMode) } : PolySynth).voices = s1.voices.map (retuneVoiceFun (s1.voices.getD ri default) s1.retuneMode) from rfl]
    rw [getD_map_voice _ (retuneVoiceFun_default _ _), hv]
    exact ⟨retuneVoiceFun_isActive _ _ _, retuneVoiceFun_midiNote _ _ _,
      retuneVoiceFun_noteOnTime _ _ _⟩

theorem releaseNote_length (s : PolySynth) (r1 r2 r3 : ℕ) (n : ℤ)
    (filt : Option (List ℕ)) :
    (releaseNote s r1 r2 r3 n filt).1.voices.length = s.voices.length := by
  rw [releaseNote_eq_dispatch]
  split
  · rw [retuneToNewReference_length, releaseNotePhase1_length]
  · exact releaseNotePhase1_length s r1 r2 n filt

theorem releaseNote_const (s : PolySynth) (r1 r2 r3 : ℕ) (n : ℤ)
    (filt : Option (List ℕ)) :
    (releaseNote s r1 r2 r3 n filt).1.clock = s.clock ∧
    (releaseNote s r1 r2 r3 n filt).1.sustainPedalDown = s.sustainPedalDown ∧
    (releaseNote s r1 r2 r3 n filt).1.sustainedNotes = s.sustainedNotes ∧
    (releaseNote s r1 r2 r3 n filt).1.sustainedVoices = s.sustainedVoices ∧
    (releaseNote s r1 r2 r3 n filt).1.keysHeldDown = s.keysHeldDown ∧
    (releaseNote s r1 r2 r3 n filt).1.retuneMode = s.retuneMode ∧
    (releaseNote s r1 r2 r3 n filt).1.referenceMode = s.referenceMode ∧
    (releaseNote s r1 r2 r3 n filt).1.pitchBendAmount = s.pitchBendAmount ∧
    (releaseNote s r1 r2 r3 n filt).1.pitchBendRange = s.pitchBendRange := by
  obtain ⟨vs, lf, ln, cur, w, hsh⟩ := releaseNotePhase1_shape s r1 r2 n filt
  rw [releaseNote_eq_dispatch]
  split
  · have hc := retuneToNewReference_const (releaseNotePhase1 s r1 r2 n filt).1 r3
    refine ⟨?_, ?_, ?_, ?_, ?_, ?_, ?_, ?_, ?_⟩
    · rw [hc.2.2.1, hsh]
    · rw [hc.2.2.2.2.2.1, hsh]
    · rw [hc.2.2.2.2.2.2.1, hsh]
    · rw [hc.2.2.2.2.2.2.2.1, hsh]
    · rw [hc.2.2.2.2.2.2.2.2.1, hsh]
    · rw [hc.2.2.2.1, hsh]
    · rw [hc.2.2.2.2.1, hsh]
    · rw [hc.2.2.2.2.2.2.2.2.2.1, hsh]
    · rw [hc.2.2.2.2.2.2.2.2.2.2, hsh]
  · rw [hsh]
    exact ⟨rfl, rfl, rfl, rfl, rfl, rfl, rfl, rfl, rfl⟩

theorem releaseNote_getD (s : PolySynth) (r1 r2 r3 : ℕ) (n : ℤ)
    (filt : Option (List ℕ)) (i : ℕ) :
    ((releaseNote s r1 r2 r3 n filt).1.voices.getD i default).midiNote =
      (s.voices.getD i default).midiNote ∧
    ((releaseNote s r1 r2 r3 n filt).1.voices.getD i default).noteOnTime =
      (s.voices.getD i default).noteOnTime ∧
    ((releaseNote s r1 r2 r3 n filt).1.voices.getD i default).isActive =
      (if i ∈ releaseTargets s.voices n filt then false
       else (s.voices.getD i default).isActive) := by
  have hphase : ∀ j : ℕ,
      ((releaseNotePhase1 s r1 r2 n filt).1.voices.getD j default).midiNote =
        (s.voices.getD j default).midiNote ∧
      ((releaseNotePhase1 s r1 r2 n filt).1.voices.getD j default).noteOnTime =
        (s.voices.getD j default).noteOnTime ∧
      ((releaseNotePhase1 s r1 r2 n filt).1.voices.getD j default).isActive =
        (if j ∈ releaseTargets s.voices n filt then false
         else (s.voices.getD j default).isActive) := by
    intro j
    rcases Nat.lt_or_ge j s.voices.length with hlt | hge
    · rw [releaseNotePhase1_getD s r1 r2 n filt j hlt]
      split
      · exact ⟨rfl, rfl, rfl⟩
      · exact ⟨rfl, rfl, rfl⟩
    · have hnm : j ∉ releaseTargets s.voices n filt := by
        intro hmem
        exact absurd (act_lt_length (mem_releaseTargets.mp hmem).1)
          (Nat.not_lt.mpr hge)
      rw [List.getD_eq_default _ _ (by rw [releaseNotePhase1_length]; exact hge),
        List.getD_eq_default _ _ hge, if_neg hnm]
      exact ⟨rfl, rfl, rfl⟩
  rw [releaseNote_eq_dispatch]
  split
  · have hp := retuneToNewReference_getD_pres
      (releaseNotePhase1 s r1 r2 n filt).1 r3 i
    rw [hp.1, hp.2.1, hp.2.2]
    exact ⟨(hphase i).1, (hphase i).2.1, (hphase i).2.2⟩
  · exact hphase i

/-! ## Effect of the pedal-up release loop -/

theorem releaseLoop_const (rf : ℕ → ℕ × ℕ × ℕ) (V : List ℕ) :
    ∀ (notes : List ℤ) (s : PolySynth) (k : ℕ),
      (releaseLoop rf V s k notes).1.clock = s.clock ∧
      (releaseLoop rf V s k notes).1.sustainPedalDown = s.sustainPedalDown ∧
      (releaseLoop rf V s k notes).1.sustainedNotes = s.sustainedNotes ∧
      (releaseLoop rf V s k notes).1.sustainedVoices = s.sustainedVoices ∧
      (releaseLoop rf V s k notes).1.keysHeldDown = s.keysHeldDown := by
  intro notes
  induction notes with
  | nil => exact fun s k => ⟨rfl, rfl, rfl, rfl, rfl⟩
  | cons n rest ih =>
    intro s k
    have h1 := releaseNote_const s (rf k).1 (rf k).2.1 (rf k).2.2 n (some V)
    have h2 := ih (releaseNote s (rf k).1 (rf k).2.1 (rf k).2.2 n (some V)).1
      (k + 1)
    simp only [releaseLoop]
    exact ⟨h2.1.trans h1.1, h2.2.1.trans h1.2.1, h2.2.2.1.trans h1.2.2.1,
      h2.2.2.2.1.trans h1.2.2.2.1, h2.2.2.2.2.trans h1.2.2.2.2.1⟩

theorem releaseLoop_voices (rf : ℕ → ℕ × ℕ × ℕ) (V : List ℕ) :
    ∀ (notes : List ℤ) (s : PolySynth) (k : ℕ),
      (releaseLoop rf V s k notes).1.voices.length = s.voices.length ∧
      ∀ i : ℕ,
        ((releaseLoop rf V s k notes).1.voices.getD i default).midiNote =
          (s.voices.getD i default).midiNote ∧
        ((releaseLoop rf V s k notes).1.voices.getD i default).noteOnTime =
          (s.voices.getD i default).noteOnTime ∧
        (((releaseLoop rf V s k notes).1.voices.getD i default).isActive = true ↔
          ((s.voices.getD i default).isActive = true ∧
           ¬∃ n ∈ notes, (s.voices.getD i default).midiNote = n ∧
             (V = [] ∨ i ∈ V))) := by
  intro notes
  induction notes with
  | nil =>
    intro s k
    refine ⟨rfl, fun i => ⟨rfl, rfl, ?_⟩⟩
    rw [show (releaseLoop rf V s k []).1 = s from rfl]
    simp
  | cons n rest ih =>
    intro s k
    have h1 := releaseNote_getD s (rf k).1 (rf k).2.1 (rf k).2.2 n (some V)
    have hlen1 := releaseNote_length s (rf k).1 (rf k).2.1 (rf k).2.2 n (some V)
    have h2 := ih (releaseNote s (rf k).1 (rf k).2.1 (rf k).2.2 n (some V)).1
      (k + 1)
    simp only [releaseLoop]
    refine ⟨h2.1.trans hlen1, fun i => ?_⟩
    have h1i := h1 i
    have h2i := h2.2 i
    refine ⟨h2i.1.trans h1i.1, h2i.2.1.trans h1i.2.1, ?_⟩
    rw [h2i.2.2, h1i.1, h1i.2.2]
    by_cases hmem : i ∈ releaseTargets s.voices n (some V)
    · rw [if_pos hmem]
      have hprops := mem_releaseTargets.mp hmem
      constructor
      · rintro ⟨hfalse, -⟩
        exact absurd hfalse (by decide)
      · rintro ⟨hact, hnone⟩
        exact absurd ⟨n, List.mem_cons_self n rest, hprops.2.1, hprops.2.2⟩ hnone
    · rw [if_neg hmem]
      constructor
      · rintro ⟨hact, hnone⟩
        refine ⟨hact, ?_⟩
        rintro ⟨m, hm, hnote, hfilt⟩
        rcases List.mem_cons.mp hm with rfl | hm2
        · exact hmem (mem_releaseTargets.mpr ⟨hact, hnote, hfilt⟩)
        · exact hnone ⟨m, hm2, hnote, hfilt⟩
      · rintro ⟨hact, hnone⟩
        refine ⟨hact, ?_⟩
        rintro ⟨m, hm, hnote, hfilt⟩
        exact hnone ⟨m, List.mem_cons_of_mem n hm, hnote, hfilt⟩

/-! ## List `set` and `replicate` access -/

theorem getD_set_general {α : Type} (d : α) {l : List α} {i j : ℕ} {a : α} :
    (l.set i a).getD j d = if i = j ∧ i < l.length then a else l.getD j d := by
  induction l generalizing i j with
  | nil =>
    rw [show (([] : List α).set i a) = [] from by cases i <;> rfl]
    rw [if_neg]
    rintro ⟨-, h⟩
    simp at h
  | cons b l ih =>
    cases i with
    | zero =>
      cases j with
      | zero => simp
      | succ j => simp
    | succ i =>
      cases j with
      | zero => simp
      | succ j =>
        rw [show ((b :: l).set (i + 1) a) = b :: l.set i a from rfl]
        rw [show (b :: l.set i a).getD (j + 1) d = (l.set i a).getD j d from rfl]
        rw [show (b :: l).getD (j + 1) d = l.getD j d from rfl]
        rw [ih]
        by_cases hij : i = j ∧ i < l.length
        · rw [if_pos hij,
            if_pos ⟨by omega, by rw [List.length_cons]; omega⟩]
        · rw [if_neg hij, if_neg]
          rintro ⟨h1, h2⟩
          rw [List.length_cons] at h2
          exact hij ⟨by omega, by omega⟩

theorem getD_replicate {α : Type} (d a : α) {k i : ℕ} :
    (List.replicate k a).getD i d = if i < k then a else d := by
  induction k generalizing i with
  | zero =>
    rw [if_neg (by omega)]
    rfl
  | succ k ih =>
    cases i with
    | zero => rw [if_pos (by omega)]; rfl
    | succ i =>
      rw [show (List.replicate (k + 1) a).getD (i + 1) d =
        (List.replicate k a).getD i d from rfl, ih]
      by_cases h : i < k
      · rw [if_pos h, if_pos (by omega)]
      · rw [if_neg h, if_neg (by omega)]

theorem insertUniq_ne_nil {α : Type} [DecidableEq α] {l : List α} {a : α} :
    insertUniq l a ≠ [] := by
  rw [insertUniq]
  split
  · intro h
    subst h
    simp_all
  · simp

/-! ## Allocation lemmas -/

theorem allocateVoice_no_other_note {voices : List Voice} {n : ℤ}
    (hdist : ∀ i j : ℕ, i ≠ j →
      (voices.getD i default).isActive = true →
      (voices.getD j default).isActive = true →
      (voices.getD i default).midiNote ≠ (voices.getD j default).midiNote) :
    ∀ j : ℕ, j ≠ (allocateVoice voices n).1 →
      (voices.getD j default).isActive = true →
      (voices.getD j default).midiNote ≠ n := by
  intro j hne hact
  rcases h1 : findIdxL (fun v => v.isActive && decide (v.midiNote = n)) voices
    with _ | i
  · have hnone := findIdxL_none h1
    have hthis := hnone _ (getD_mem default (act_lt_length hact))
    intro hnote
    rw [hact, hnote] at hthis
    simp at hthis
  · have hsome := findIdxL_some h1
    rw [Bool.and_eq_true, decide_eq_true_eq] at hsome
    have hi : (allocateVoice voices n).1 = i := by
      simp only [allocateVoice]
      rw [h1]
    intro hnote
    refine hdist j i (by rw [hi] at hne; exact hne) hact hsome.2.1 ?_
    rw [hnote, hsome.2.2]

/-! ## Effect of note-on -/

/-- `noteOn` sets exactly the allocated slot to a fresh active voice
carrying the new note and the current clock, advances the clock, and may
additionally update the last-reference memory and the sticky reference. -/
theorem noteOn_shape (s : PolySynth) (rand : ℕ) (n vel : ℤ) :
    ∃ (lf : Option Freq) (ln : Option ℤ) (cur : Option ℕ) (F : Freq)
      (bn : ℤ) (bf : Freq),
      (noteOn s rand n vel).1 =
        { s with
            voices := s.voices.set (allocateVoice s.voices n).1
              { isActive := true, midiNote := n, frequency := F
                noteOnTime := s.clock, tunedToBassNote := bn
                tunedToBassFreq := bf }
            clock := s.clock + 1
            lastBassFrequency := lf
            lastBassMidiNote := ln
            currentReferenceVoice := cur } := by
  simp only [noteOn, startVoiceAt]
  repeat' split
  all_goals try simp only [getReferenceVoice_eq]
  all_goals exact ⟨_, _, _, _, _, _, rfl⟩

theorem getReferenceVoice_none_of_silent {s : PolySynth} {rand : ℕ}
    (hall : ∀ v ∈ s.voices, v.isActive = false) :
    (getReferenceVoice s rand).1 = none := by
  have hnil := activeIdxPairs_eq_nil hall
  have hlow : getLowestActiveIdx s.voices = none := by
    rw [getLowestActiveIdx, hnil]
  have hfhc : findHarmonicCenter s.voices = none := by
    rw [findHarmonicCenter, hnil]
  have hpick : ∀ r : ℕ, pickRandomRef s.voices r = (none, none) := by
    intro r
    rw [pickRandomRef, hnil]
  rw [getReferenceVoice_fst]
  by_cases hb : s.referenceMode = "bass"
  · rw [hb, selectReference_bass, hlow]
  · by_cases hrand : s.referenceMode = "random"
    · rw [hrand]
      rcases hst : s.currentReferenceVoice with _ | j
      · rw [selectReference_random_fresh, hpick]
      · rw [selectReference_random_sticky,
          if_neg (by simp only [getD_inactive_of_all_inactive hall]; exact Bool.false_ne_true), hpick]
    · by_cases hlat : s.referenceMode = "lattice"
      · rw [hlat]
        rcases hst : s.currentReferenceVoice with _ | j
        · rw [selectReference_lattice_fresh, hfhc]
        · rw [selectReference_lattice_sticky,
            if_neg (by simp only [getD_inactive_of_all_inactive hall]; exact Bool.false_ne_true), hfhc]
      · rw [selectReference_unknown hb hrand hlat, hlow]

/-- Resuming from the stored reference memory: with no active voices and a
populated memory, `noteOn` derives the frequency from the memory (the
stored frequency itself when the notes coincide). -/
theorem noteOn_silent_mem {s : PolySynth} {rand : ℕ} {n vel : ℤ} {f : Freq}
    {ln : ℤ} (hall : ∀ v ∈ s.voices, v.isActive = false)
    (hf : s.lastBassFrequency = some f) (hln : s.lastBassMidiNote = some ln) :
    (noteOn s rand n vel).2.frequency =
      (if n = ln then f else getJustFrequency f ln n) ∧
    (noteOn s rand n vel).2.usedStoredReference = true ∧
    (noteOn s rand n vel).1.lastBassFrequency =
      some (if n = ln then f else getJustFrequency f ln n) ∧
    (noteOn s rand n vel).1.lastBassMidiNote = some n := by
  rcases hgr : getReferenceVoice s rand with ⟨o, s1⟩
  have ho : o = none := by
    have h0 := @getReferenceVoice_none_of_silent s rand hall
    rw [hgr] at h0
    exact h0
  subst ho
  have hs1 : s1 = (getReferenceVoice s rand).2 := by rw [hgr]
  have hf1 : s1.lastBassFrequency = some f := by
    rw [hs1, getReferenceVoice_eq]
    exact hf
  have hln1 : s1.lastBassMidiNote = some ln := by
    rw [hs1, getReferenceVoice_eq]
    exact hln
  simp only [noteOn]
  rw [hgr]
  simp only []
  rw [hf1, hln1]
  exact ⟨rfl, rfl, rfl, rfl⟩

/-- Equal-temperament fallback: with no active voices and an empty memory,
`noteOn` uses `midiToFrequency`. -/
theorem noteOn_silent_empty {s : PolySynth} {rand : ℕ} {n vel : ℤ}
    (hall : ∀ v ∈ s.voices, v.isActive = false)
    (hf : s.lastBassFrequency = none) (hln : s.lastBassMidiNote = none) :
    (noteOn s rand n vel).2.frequency = midiToFrequency n ∧
    (noteOn s rand n vel).2.usedStoredReference = false := by
  rcases hgr : getReferenceVoice s rand with ⟨o, s1⟩
  have ho : o = none := by
    have h0 := @getReferenceVoice_none_of_silent s rand hall
    rw [hgr] at h0
    exact h0
  subst ho
  have hs1 : s1 = (getReferenceVoice s rand).2 := by rw [hgr]
  have hf1 : s1.lastBassFrequency = none := by
    rw [hs1, getReferenceVoice_eq]
    exact hf
  have hln1 : s1.lastBassMidiNote = none := by
    rw [hs1, getReferenceVoice_eq]
    exact hln
  simp only [noteOn]
  rw [hgr]
  simp only []
  rw [hf1, hln1]
  exact ⟨rfl, rfl⟩

/-! ## Preservation of the inductive invariant -/

theorem initSynth_getD_inactive (polyphony i : ℕ) :
    ((initSynth polyphony).voices.getD i default).isActive = false := by
  rw [show (initSynth polyphony).voices = List.replicate polyphony initVoice
    from rfl, getD_replicate]
  split <;> rfl

theorem inv_initSynth (polyphony : ℕ) : Inv (initSynth polyphony) := by
  refine ⟨?_, ?_, ?_, ?_, ?_, ?_⟩
  · intro i j hne hi hj
    rw [initSynth_getD_inactive] at hi
    exact absurd hi (by decide)
  · intro i j hne hi hj
    rw [initSynth_getD_inactive] at hi
    exact absurd hi (by decide)
  · intro i hi
    rw [initSynth_getD_inactive] at hi
    exact absurd hi (by decide)
  · intro i hi hact
    exact absurd (show i ∈ ([] : List ℕ) from hi) (List.not_mem_nil i)
  · intro hne
    exact absurd (show ([] : List ℤ) = [] from rfl) hne
  · intro _
    exact ⟨rfl, rfl⟩

theorem releaseNote_act {s : PolySynth} {r1 r2 r3 : ℕ} {n : ℤ}
    {filt : Option (List ℕ)} {i : ℕ}
    (h : ((releaseNote s r1 r2 r3 n filt).1.voices.getD i default).isActive =
      true) : (s.voices.getD i default).isActive = true := by
  rw [(releaseNote_getD s r1 r2 r3 n filt i).2.2] at h
  split at h
  · exact absurd h (by decide)
  · exact h

theorem inv_releaseNote {s : PolySynth} (hs : Inv s) (r1 r2 r3 : ℕ) (n : ℤ)
    (filt : Option (List ℕ)) : Inv (releaseNote s r1 r2 r3 n filt).1 := by
  obtain ⟨hclock, hped, hsn, hsv, hk, -, -, -, -⟩ :=
    releaseNote_const s r1 r2 r3 n filt
  refine ⟨?_, ?_, ?_, ?_, ?_, ?_⟩
  · intro i j hne hi hj
    rw [(releaseNote_getD s r1 r2 r3 n filt i).1,
      (releaseNote_getD s r1 r2 r3 n filt j).1]
    exact hs.notesDistinct i j hne (releaseNote_act hi) (releaseNote_act hj)
  · intro i j hne hi hj
    rw [(releaseNote_getD s r1 r2 r3 n filt i).2.1,
      (releaseNote_getD s r1 r2 r3 n filt j).2.1]
    exact hs.timesDistinct i j hne (releaseNote_act hi) (releaseNote_act hj)
  · intro i hi
    rw [(releaseNote_getD s r1 r2 r3 n filt i).2.1, hclock]
    exact hs.timesLtClock i (releaseNote_act hi)
  · intro i hi hact
    rw [hsv] at hi
    rw [(releaseNote_getD s r1 r2 r3 n filt i).1, hsn, hk]
    exact hs.susNote i hi (releaseNote_act hact)
  · rw [hsn, hsv]
    exact hs.susNonempty
  · rw [hped, hsn, hsv]
    exact hs.pedalClear

theorem inv_set_new {s t : PolySynth} (hs : Inv s) {n : ℤ}
    (hkey : n ∈ s.keysHeldDown) {F bf : Freq} {bn : ℤ}
    (hv : t.voices = s.voices.set (allocateVoice s.voices n).1
      { isActive := true, midiNote := n, frequency := F
        noteOnTime := s.clock, tunedToBassNote := bn, tunedToBassFreq := bf })
    (hc : t.clock = s.clock + 1)
    (hsn : t.sustainedNotes = s.sustainedNotes)
    (hsv : t.sustainedVoices = s.sustainedVoices)
    (hped : t.sustainPedalDown = s.sustainPedalDown)
    (hk : t.keysHeldDown = s.keysHeldDown) : Inv t := by
  refine ⟨?_, ?_, ?_, ?_, ?_, ?_⟩
  · intro i j hne hi hj
    simp only [hv, getD_set_general] at hi hj ⊢
    by_cases hA : (allocateVoice s.voices n).1 = i ∧
        (allocateVoice s.voices n).1 < s.voices.length
    · rw [if_pos hA] at hi ⊢
      by_cases hB : (allocateVoice s.voices n).1 = j ∧
          (allocateVoice s.voices n).1 < s.voices.length
      · exact absurd (hA.1.symm.trans hB.1) hne
      · rw [if_neg hB] at hj ⊢
        have hjne : j ≠ (allocateVoice s.voices n).1 :=
          fun h => hB ⟨h.symm, hA.2⟩
        exact fun hcontra =>
          (allocateVoice_no_other_note hs.notesDistinct j hjne hj) hcontra.symm
    · rw [if_neg hA] at hi ⊢
      by_cases hB : (allocateVoice s.voices n).1 = j ∧
          (allocateVoice s.voices n).1 < s.voices.length
      · rw [if_pos hB] at hj ⊢
        have hine : i ≠ (allocateVoice s.voices n).1 :=
          fun h => hA ⟨h.symm, hB.2⟩
        exact allocateVoice_no_other_note hs.notesDistinct i hine hi
      · rw [if_neg hB] at hj ⊢
        exact hs.notesDistinct i j hne hi hj
  · intro i j hne hi hj
    simp only [hv, getD_set_general] at hi hj ⊢
    by_cases hA : (allocateVoice s.voices n).1 = i ∧
        (allocateVoice s.voices n).1 < s.voices.length
    · rw [if_pos hA] at hi ⊢
      by_cases hB : (allocateVoice s.voices n).1 = j ∧
          (allocateVoice s.voices n).1 < s.voices.length
      · exact absurd (hA.1.symm.trans hB.1) hne
      · rw [if_neg hB] at hj ⊢
        intro h
        exact absurd (hs.timesLtClock j hj)
          (by rw [← h]; exact Nat.lt_irrefl _)
    · rw [if_neg hA] at hi ⊢
      by_cases hB : (allocateVoice s.voices n).1 = j ∧
          (allocateVoice s.voices n).1 < s.voices.length
      · rw [if_pos hB] at hj ⊢
        intro h
        exact absurd (hs.timesLtClock i hi)
          (by rw [h]; exact Nat.lt_irrefl _)
      · rw [if_neg hB] at hj ⊢
        exact hs.timesDistinct i j hne hi hj
  · intro i hi
    simp only [hv, getD_set_general] at hi ⊢
    rw [hc]
    by_cases hA : (allocateVoice s.voices n).1 = i ∧
        (allocateVoice s.voices n).1 < s.voices.length
    · rw [if_pos hA]
      exact Nat.lt_succ_self _
    · rw [if_neg hA] at hi ⊢
      exact Nat.lt_succ_of_lt (hs.timesLtClock i hi)
  · intro i hi hact
    rw [hsv] at hi
    rw [hsn, hk]
    simp only [hv, getD_set_general] at hact ⊢
    by_cases hA : (allocateVoice s.voices n).1 = i ∧
        (allocateVoice s.voices n).1 < s.voices.length
    · rw [if_pos hA]
      exact Or.inr hkey
    · rw [if_neg hA] at hact ⊢
      exact hs.susNote i hi hact
  · rw [hsn, hsv]
    exact hs.susNonempty
  · rw [hped, hsn, hsv]
    exact hs.pedalClear

theorem inv_noteOn {s : PolySynth} (hs : Inv s) {n : ℤ}
    (hkey : n ∈ s.keysHeldDown) (rand : ℕ) (vel : ℤ) :
    Inv (noteOn s rand n vel).1 := by
  obtain ⟨lf, ln, cur, F, bn, bf, hsh⟩ := noteOn_shape s rand n vel
  rw [hsh]
  exact inv_set_new hs hkey rfl rfl rfl rfl rfl rfl

theorem inv_handleNoteOn {s : PolySynth} (hs : Inv s) (n vel : ℤ) (rand : ℕ) :
    Inv (handleNoteOn s n vel rand).1 := by
  have hs0 : Inv { s with keysHeldDown := insertUniq s.keysHeldDown n } := by
    refine ⟨hs.notesDistinct, hs.timesDistinct, hs.timesLtClock, ?_,
      hs.susNonempty, ?_⟩
    · intro i hi hact
      rcases hs.susNote i hi hact with h | h
      · exact Or.inl h
      · exact Or.inr (mem_insertUniq.mpr (Or.inr h))
    · intro h
      exact hs.pedalClear h
  exact inv_noteOn hs0 (mem_insertUniq.mpr (Or.inl rfl)) rand vel

theorem inv_handleNoteOff {s : PolySynth} (hs : Inv s) (n : ℤ)
    (r1 r2 r3 : ℕ) : Inv (handleNoteOff s n r1 r2 r3).1 := by
  have heq : handleNoteOff s n r1 r2 r3 =
      (match ((enumList s.voices).filter
          (fun p => p.2.isActive && decide (p.2.midiNote = n))).getLast? with
        | none => ({ s with keysHeldDown := s.keysHeldDown.erase n }, [])
        | some p =>
          if s.sustainPedalDown then
            ({ s with keysHeldDown := s.keysHeldDown.erase n
                      sustainedNotes := insertUniq s.sustainedNotes n
                      sustainedVoices := insertUniq s.sustainedVoices p.1 }, [])
          else releaseNote { s with keysHeldDown := s.keysHeldDown.erase n }
            r1 r2 r3 n none) := rfl
  rw [heq]
  rcases htc : ((enumList s.voices).filter
      (fun p => p.2.isActive && decide (p.2.midiNote = n))).getLast? with _ | p
  · simp only [htc]
    refine ⟨hs.notesDistinct, hs.timesDistinct, hs.timesLtClock, ?_,
      hs.susNonempty, ?_⟩
    · intro i hi hact
      have hact2 : (s.voices.getD i default).isActive = true := hact
      rcases hs.susNote i hi hact2 with h | h
      · exact Or.inl h
      · refine Or.inr ?_
        have hne : (s.voices.getD i default).midiNote ≠ n := by
          intro hmn
          have hmem : i ∈ (((enumList s.voices).filter
              (fun p => p.2.isActive && decide (p.2.midiNote = n))).map
              (fun p => p.1)) :=
            mem_enum_filter_map.mpr ⟨act_lt_length hact2,
              by rw [hact2, hmn]; simp⟩
          rw [List.getLast?_eq_none_iff.mp htc] at hmem
          exact absurd hmem (List.not_mem_nil i)
        exact (List.mem_erase_of_ne hne).mpr h
    · intro h
      exact hs.pedalClear h
  · simp only [htc]
    by_cases hped : s.sustainPedalDown = true
    · rw [if_pos hped]
      have hp : p ∈ ((enumList s.voices).filter
          (fun p => p.2.isActive && decide (p.2.midiNote = n))) :=
        List.mem_of_mem_getLast? htc
      rw [List.mem_filter] at hp
      obtain ⟨hj, hpj⟩ := mem_enumList.mp hp.1
      have hpq := hp.2
      rw [Bool.and_eq_true, decide_eq_true_eq] at hpq
      have hpnote : (s.voices.getD p.1 default).midiNote = n := by
        rw [← hpj]
        exact hpq.2
      refine ⟨hs.notesDistinct, hs.timesDistinct, hs.timesLtClock, ?_, ?_, ?_⟩
      · intro i hi hact
        have hact2 : (s.voices.getD i default).isActive = true := hact
        rcases mem_insertUniq.mp hi with rfl | hi2
        · exact Or.inl (mem_insertUniq.mpr (Or.inl hpnote))
        · rcases hs.susNote i hi2 hact2 with h | h
          · exact Or.inl (mem_insertUniq.mpr (Or.inr h))
          · by_cases hmn : (s.voices.getD i default).midiNote = n
            · exact Or.inl (mem_insertUniq.mpr (Or.inl hmn))
            · exact Or.inr ((List.mem_erase_of_ne hmn).mpr h)
      · intro _
        exact insertUniq_ne_nil
      · intro hf
        have hf2 : s.sustainPedalDown = false := hf
        rw [hped] at hf2
        exact absurd hf2 (by decide)
    · rw [if_neg hped]
      have hped2 : s.sustainPedalDown = false := by
        cases hb : s.sustainPedalDown
        · rfl
        · exact absurd hb hped
      obtain ⟨hN, hV⟩ := hs.pedalClear hped2
      have hs0 : Inv { s with keysHeldDown := s.keysHeldDown.erase n } := by
        refine ⟨hs.notesDistinct, hs.timesDistinct, hs.timesLtClock,
          ?_, ?_, ?_⟩
        · intro i hi hact
          have hi2 : i ∈ s.sustainedVoices := hi
          rw [hV] at hi2
          exact absurd hi2 (List.not_mem_nil i)
        · intro hne
          exact absurd hN hne
        · intro _
          exact ⟨hN, hV⟩
      exact inv_releaseNote hs0 r1 r2 r3 n none

theorem inv_pedalDown {s : PolySynth} (hs : Inv s) :
    Inv (handleSustainPedalDown s) := by
  refine ⟨hs.notesDistinct, hs.timesDistinct, hs.timesLtClock, hs.susNote,
    hs.susNonempty, ?_⟩
  intro hf
  have hf2 : true = false := hf
  exact absurd hf2 (by decide)

theorem inv_releaseLoop {s : PolySynth} (hs : Inv s) (rf : ℕ → ℕ × ℕ × ℕ)
    (V : List ℕ) (notes : List ℤ) (k : ℕ) :
    Inv (releaseLoop rf V s k notes).1 := by
  obtain ⟨hclock, hped, hsn, hsv, hk⟩ := releaseLoop_const rf V notes s k
  obtain ⟨hlen, hvcs⟩ := releaseLoop_voices rf V notes s k
  refine ⟨?_, ?_, ?_, ?_, ?_, ?_⟩
  · intro i j hne hi hj
    rw [(hvcs i).1, (hvcs j).1]
    exact hs.notesDistinct i j hne ((hvcs i).2.2.mp hi).1 ((hvcs j).2.2.mp hj).1
  · intro i j hne hi hj
    rw [(hvcs i).2.1, (hvcs j).2.1]
    exact hs.timesDistinct i j hne ((hvcs i).2.2.mp hi).1 ((hvcs j).2.2.mp hj).1
  · intro i hi
    rw [(hvcs i).2.1, hclock]
    exact hs.timesLtClock i ((hvcs i).2.2.mp hi).1
  · intro i hi hact
    rw [hsv] at hi
    rw [(hvcs i).1, hsn, hk]
    exact hs.susNote i hi ((hvcs i).2.2.mp hact).1
  · rw [hsn, hsv]
    exact hs.susNonempty
  · rw [hped, hsn, hsv]
    exact hs.pedalClear

theorem inv_pedalUp {s : PolySynth} (hs : Inv s) (rf : ℕ → ℕ × ℕ × ℕ) :
    Inv (handleSustainPedalUp s rf).1 := by
  have hs1 : Inv { s with sustainPedalDown := false
                          sustainedNotes := ([] : List ℤ)
                          sustainedVoices := ([] : List ℕ) } := by
    refine ⟨hs.notesDistinct, hs.timesDistinct, hs.timesLtClock, ?_, ?_, ?_⟩
    · intro i hi hact
      exact absurd (show i ∈ ([] : List ℕ) from hi) (List.not_mem_nil i)
    · intro hne
      exact absurd (show ([] : List ℤ) = [] from rfl) hne
    · intro _
      exact ⟨rfl, rfl⟩
  exact inv_releaseLoop hs1 rf s.sustainedVoices
    (s.sustainedNotes.filter (fun m => !(decide (m ∈ s.keysHeldDown)))) 0

theorem inv_resetReference {s : PolySynth} (hs : Inv s) :
    Inv (resetReference s) := by
  have hact : ∀ i : ℕ,
      ((resetReference s).voices.getD i default).isActive = false := by
    intro i
    have h1 : (resetReference s).voices =
        s.voices.map (fun v => { v with isActive := false }) := rfl
    rw [h1, getD_map_voice _ rfl]
  refine ⟨?_, ?_, ?_, ?_, hs.susNonempty, hs.pedalClear⟩
  · intro i j hne hi hj
    rw [hact i] at hi
    exact absurd hi (by decide)
  · intro i j hne hi hj
    rw [hact i] at hi
    exact absurd hi (by decide)
  · intro i hi
    rw [hact i] at hi
    exact absurd hi (by decide)
  · intro i hi hactv
    rw [hact i] at hactv
    exact absurd hactv (by decide)

theorem inv_setReferenceMode {s : PolySynth} (hs : Inv s) (mode : String) :
    Inv (setReferenceMode s mode) :=
  ⟨hs.notesDistinct, hs.timesDistinct, hs.timesLtClock, hs.susNote,
   hs.susNonempty, hs.pedalClear⟩

theorem inv_setRetuneMode {s : PolySynth} (hs : Inv s) (mode : String) :
    Inv (setRetuneMode s mode) :=
  ⟨hs.notesDistinct, hs.timesDistinct, hs.timesLtClock, hs.susNote,
   hs.susNonempty, hs.pedalClear⟩

theorem inv_applyPitchBend {s : PolySynth} (hs : Inv s) (amount : ℚ) :
    Inv (applyPitchBend s amount) :=
  ⟨hs.notesDistinct, hs.timesDistinct, hs.timesLtClock, hs.susNote,
   hs.susNonempty, hs.pedalClear⟩

theorem inv_setPitchBendRange {s : PolySynth} (hs : Inv s) (cents : ℚ) :
    Inv (setPitchBendRange s cents) :=
  ⟨hs.notesDistinct, hs.timesDistinct, hs.timesLtClock, hs.susNote,
   hs.susNonempty, hs.pedalClear⟩

theorem inv_step {s : PolySynth} (hs : Inv s) (e : Event) : Inv (step s e) := by
  cases e with
  | noteOn n vel rand => exact inv_handleNoteOn hs n vel rand
  | noteOff n r1 r2 r3 => exact inv_handleNoteOff hs n r1 r2 r3
  | pedalDown => exact inv_pedalDown hs
  | pedalUp rf => exact inv_pedalUp hs rf
  | reset => exact inv_resetReference hs
  | setReferenceMode m => exact inv_setReferenceMode hs m
  | setRetuneMode m => exact inv_setRetuneMode hs m
  | pitchBend a => exact inv_applyPitchBend hs a
  | pitchBendRange c => exact inv_setPitchBendRange hs c

theorem reachable_inv {polyphony : ℕ} {s : PolySynth}
    (h : Reachable polyphony s) : Inv s := by
  induction h with
  | init => exact inv_initSynth polyphony
  | step h e ih => exact inv_step ih e

/-- C9.  In every state reachable through the public operations, no two
active voices share a note number: allocation retriggers an existing
same-note voice instead of starting a second one, and release only
deactivates voices. -/
theorem active_notes_unique {polyphony : ℕ} {s : PolySynth}
    (h : Reachable polyphony s) :
    ∀ i j : ℕ, i ≠ j →
      (voiceAt s i).isActive = true → (voiceAt s j).isActive = true →
      (voiceAt s i).midiNote ≠ (voiceAt s j).midiNote :=
  (reachable_inv h).notesDistinct

theorem active_notes_unique_witness :
    (voiceAt instSynth3 0).isActive = true ∧
    (voiceAt instSynth3 1).isActive = true ∧
    (voiceAt instSynth3 0).midiNote ≠ (voiceAt instSynth3 1).midiNote := by
  have hr : Reachable 8 instSynth3 :=
    Reachable.step (Reachable.step (Reachable.step (Reachable.step
      (@Reachable.init 8) (Event.setRetuneMode "instant"))
      (Event.noteOn 60 100 0)) (Event.noteOn 64 100 0)) (Event.noteOn 67 100 0)
  exact ⟨by decide, by decide,
    active_notes_unique hr 0 1 (by decide) (by decide) (by decide)⟩

/-- C4.  A voice is released by the sustain-pedal-up handler iff it was
deferred to the sustained-voice set and its note's key is not physically
held at pedal-up time; in particular, in the retrigger scenario
`noteOn 60, pedal down, noteOff 60, noteOn 60` the voice playing 60
survives pedal-up. -/
theorem pedal_up_release_iff {polyphony : ℕ} {s : PolySynth}
    (h : Reachable polyphony s) (rf : ℕ → ℕ × ℕ × ℕ) (i : ℕ)
    (hact : (voiceAt s i).isActive = true) :
    ((voiceAt (handleSustainPedalUp s rf).1 i).isActive = false ↔
      i ∈ s.sustainedVoices ∧ (voiceAt s i).midiNote ∉ s.keysHeldDown) ∧
    (voiceAt (handleSustainPedalUp pedalSynth4 rf).1 0).isActive = true := by
  have hinv := reachable_inv h
  simp only [voiceAt] at hact ⊢
  constructor
  · have heq : (handleSustainPedalUp s rf).1 =
        (releaseLoop rf s.sustainedVoices
          { s with sustainPedalDown := false, sustainedNotes := []
                   sustainedVoices := [] } 0
          (s.sustainedNotes.filter
            (fun m => !(decide (m ∈ s.keysHeldDown))))).1 := rfl
    rw [heq]
    obtain ⟨hlen, hvcs⟩ := releaseLoop_voices rf s.sustainedVoices
      (s.sustainedNotes.filter (fun m => !(decide (m ∈ s.keysHeldDown))))
      { s with sustainPedalDown := false, sustainedNotes := []
               sustainedVoices := [] } 0
    have hiff := (hvcs i).2.2
    set L := (releaseLoop rf s.sustainedVoices
      { s with sustainPedalDown := false, sustainedNotes := []
               sustainedVoices := [] } 0
      (s.sustainedNotes.filter
        (fun m => !(decide (m ∈ s.keysHeldDown))))).1 with hL
    constructor
    · intro hfalse
      have hEx : ∃ m ∈ s.sustainedNotes.filter
          (fun m => !(decide (m ∈ s.keysHeldDown))),
          (s.voices.getD i default).midiNote = m ∧
          (s.sustainedVoices = [] ∨ i ∈ s.sustainedVoices) := by
        by_contra hnE
        have htrue : (L.voices.getD i default).isActive = true :=
          hiff.mpr ⟨hact, hnE⟩
        rw [hfalse] at htrue
        exact absurd htrue (by decide)
      obtain ⟨m, hm, hnote, hVor⟩ := hEx
      have hmK : m ∉ s.keysHeldDown := by
        have hmf := (List.mem_filter.mp hm).2
        simpa using hmf
      have hmN : m ∈ s.sustainedNotes := (List.mem_filter.mp hm).1
      have hiV : i ∈ s.sustainedVoices := by
        rcases hVor with hVnil | hiV
        · exact absurd hVnil (hinv.susNonempty (List.ne_nil_of_mem hmN))
        · exact hiV
      refine ⟨hiV, ?_⟩
      rw [hnote]
      exact hmK
    · rintro ⟨hiV, hnK⟩
      have hmN : (s.voices.getD i default).midiNote ∈ s.sustainedNotes := by
        rcases hinv.susNote i hiV hact with h1 | h1
        · exact h1
        · exact absurd h1 hnK
      have hnotTrue : ¬ (L.voices.getD i default).isActive = true := by
        intro htrue
        obtain ⟨-, hnE⟩ := hiff.mp htrue
        exact hnE ⟨(s.voices.getD i default).midiNote,
          List.mem_filter.mpr ⟨hmN, by simpa using hnK⟩, rfl, Or.inr hiV⟩
      cases hb : (L.voices.getD i default).isActive
      · rfl
      · exact absurd hb hnotTrue
  · have hnil : pedalSynth4.sustainedNotes.filter
        (fun m => !(decide (m ∈ pedalSynth4.keysHeldDown))) = [] := by decide
    have heq4 : (handleSustainPedalUp pedalSynth4 rf).1 =
        { pedalSynth4 with sustainPedalDown := false, sustainedNotes := []
                           sustainedVoices := [] } := by
      show (releaseLoop rf pedalSynth4.sustainedVoices
        { pedalSynth4 with sustainPedalDown := false, sustainedNotes := []
                           sustainedVoices := [] } 0
        (pedalSynth4.sustainedNotes.filter
          (fun m => !(decide (m ∈ pedalSynth4.keysHeldDown))))).1 = _
      rw [hnil]
      rfl
    rw [heq4]
    decide

theorem pedal_up_release_iff_witness :
    (voiceAt pedalSynth3 0).isActive = true ∧
    ((voiceAt (handleSustainPedalUp pedalSynth3 (fun _ => (0, 0, 0))).1
        0).isActive = false ↔
      0 ∈ pedalSynth3.sustainedVoices ∧
      (voiceAt pedalSynth3 0).midiNote ∉ pedalSynth3.keysHeldDown) := by
  have hr : Reachable 8 pedalSynth3 :=
    Reachable.step (Reachable.step (Reachable.step (@Reachable.init 8)
      (Event.noteOn 60 100 0)) Event.pedalDown) (Event.noteOff 60 0 0 0)
  exact ⟨by decide,
    (pedal_up_release_iff hr (fun _ => (0, 0, 0)) 0 (by decide)).1⟩

/-- C5.  Voice allocation: (1) an active voice already playing the note is
retriggered (and by note uniqueness it is the unique such voice) with
nothing stolen; (2) otherwise an idle voice is taken with nothing stolen;
(3) with the pool fully active, the strictly oldest voice (unique, since
active start times never tie in a reachable state) is stolen and its note
reported. -/
theorem allocate_spec {polyphony : ℕ} {s : PolySynth}
    (h : Reachable polyphony s) (n : ℤ) :
    (∀ i, (voiceAt s i).isActive = true → (voiceAt s i).midiNote = n →
      allocateVoice s.voices n = (i, none)) ∧
    ((∀ i, i < s.voices.length → (voiceAt s i).isActive = true →
        (voiceAt s i).midiNote ≠ n) →
      (∃ i, i < s.voices.length ∧ (voiceAt s i).isActive = false) →
      (allocateVoice s.voices n).2 = none ∧
      (voiceAt s (allocateVoice s.voices n).1).isActive = false) ∧
    ((∀ i, i < s.voices.length → (voiceAt s i).isActive = true) →
      (∀ i, i < s.voices.length → (voiceAt s i).midiNote ≠ n) →
      s.voices ≠ [] →
      (allocateVoice s.voices n).1 < s.voices.length ∧
      (∀ j, j < s.voices.length → j ≠ (allocateVoice s.voices n).1 →
        (voiceAt s (allocateVoice s.voices n).1).noteOnTime <
          (voiceAt s j).noteOnTime) ∧
      (allocateVoice s.voices n).2 =
        some ((voiceAt s (allocateVoice s.voices n).1).midiNote)) := by
  have hinv := reachable_inv h
  simp only [voiceAt]
  refine ⟨?_, ?_, ?_⟩
  · intro i hact hnote
    rcases hf : findIdxL (fun v => v.isActive && decide (v.midiNote = n))
        s.voices with _ | j
    · exfalso
      have hall := findIdxL_none hf _ (getD_mem default (act_lt_length hact))
      simp only [] at hall
      rw [hact, hnote] at hall
      simp at hall
    · have hj := findIdxL_some hf
      have hj2 := hj.2
      simp only [Bool.and_eq_true, decide_eq_true_eq] at hj2
      have hji : j = i := by
        by_contra hne
        exact hinv.notesDistinct j i hne hj2.1 hact
          (by rw [hj2.2, hnote])
      have hres : allocateVoice s.voices n = (j, none) := by
        simp only [allocateVoice, hf]
      rw [hres, hji]
  · intro hno hidle
    rcases hf : findIdxL (fun v => v.isActive && decide (v.midiNote = n))
        s.voices with _ | j
    · rcases hg : findIdxL (fun v => !v.isActive) s.voices with _ | j2
      · exfalso
        obtain ⟨i, hilen, hidl⟩ := hidle
        have hall := findIdxL_none hg _ (getD_mem default hilen)
        simp only [] at hall
        rw [hidl] at hall
        simp at hall
      · have hres : allocateVoice s.voices n = (j2, none) := by
          simp only [allocateVoice, hf, hg]
        have hj2 := findIdxL_some hg
        have hb := hj2.2
        simp only [Bool.not_eq_true'] at hb
        rw [hres]
        exact ⟨rfl, hb⟩
    · exfalso
      have hj := findIdxL_some hf
      have hj2 := hj.2
      simp only [Bool.and_eq_true, decide_eq_true_eq] at hj2
      exact hno j hj.1 hj2.1 hj2.2
  · intro hall hno hnonempty
    rcases hf : findIdxL (fun v => v.isActive && decide (v.midiNote = n))
        s.voices with _ | j
    · rcases hg : findIdxL (fun v => !v.isActive) s.voices with _ | j2
      · rcases he : enumList s.voices with _ | ⟨x, xs⟩
        · exfalso
          have h0 : s.voices.length = 0 := by
            have hl := enumFrom_length 0 s.voices
            rw [show enumList s.voices = enumFrom 0 s.voices from rfl] at he
            rw [he] at hl
            simpa using hl.symm
          exact hnonempty (List.length_eq_zero.mp h0)
        · have hres : allocateVoice s.voices n =
              ((foldMinBy (fun p => p.2.noteOnTime) x xs).1,
               some (foldMinBy (fun p => p.2.noteOnTime) x xs).2.midiNote) := by
            simp only [allocateVoice, hf, hg, he]
          set o := foldMinBy (fun p => p.2.noteOnTime) x xs with ho
          have homem : o ∈ enumList s.voices := by
            rw [he]
            rcases foldMinBy_eq_or_mem (fun p => p.2.noteOnTime) x xs with h1 | h1
            · rw [ho, h1]
              exact List.mem_cons_self x xs
            · exact List.mem_cons_of_mem x h1
          obtain ⟨holen, hogetD⟩ := mem_enumList.mp homem
          have hmin : ∀ q ∈ enumList s.voices,
              o.2.noteOnTime ≤ q.2.noteOnTime := by
            intro q hq
            rw [he] at hq
            rcases List.mem_cons.mp hq with hq1 | hq2
            · rw [hq1]
              exact (foldMinBy_le (fun p => p.2.noteOnTime) x xs).1
            · exact (foldMinBy_le (fun p => p.2.noteOnTime) x xs).2 q hq2
          rw [hres]
          refine ⟨holen, ?_, ?_⟩
          · intro j hjlen hjne
            have hq : ((j, s.voices.getD j default) : ℕ × Voice) ∈
                enumList s.voices := mem_enumList.mpr ⟨hjlen, rfl⟩
            have hle := hmin _ hq
            have hne2 : (s.voices.getD o.1 default).noteOnTime ≠
                (s.voices.getD j default).noteOnTime :=
              hinv.timesDistinct o.1 j (fun hcon => hjne hcon.symm)
                (hall o.1 holen) (hall j hjlen)
            show (s.voices.getD o.1 default).noteOnTime <
              (s.voices.getD j default).noteOnTime
            rw [← hogetD]
            exact lt_of_le_of_ne hle (by rw [hogetD]; exact hne2)
          · show some o.2.midiNote =
              some ((s.voices.getD o.1 default).midiNote)
            rw [hogetD]
      · exfalso
        have hj2 := findIdxL_some hg
        have hb := hj2.2
        simp only [Bool.not_eq_true'] at hb
        rw [hall j2 hj2.1] at hb
        exact absurd hb (by decide)
    · exfalso
      have hj := findIdxL_some hf
      have hj2 := hj.2
      simp only [Bool.and_eq_true, decide_eq_true_eq] at hj2
      exact hno j hj.1 hj2.2

theorem allocate_spec_witness :
    (voiceAt instSynth3 1).isActive = true ∧
    (voiceAt instSynth3 1).midiNote = 64 ∧
    allocateVoice instSynth3.voices 64 = (1, none) := by
  have hr : Reachable 8 instSynth3 :=
    Reachable.step (Reachable.step (Reachable.step (Reachable.step
      (@Reachable.init 8) (Event.setRetuneMode "instant"))
      (Event.noteOn 60 100 0)) (Event.noteOn 64 100 0)) (Event.noteOn 67 100 0)
  exact ⟨by decide, by decide,
    (allocate_spec hr 64).1 1 (by decide) (by decide)⟩

/-- C1.  Releasing the current reference stores its sounding frequency
(with the pitch-bend offset applied, read before deactivation) and its
note into the last-reference memory; a later note-on with no active
voices resumes from that memory by just intonation (the stored frequency
itself on the same note), and falls back to equal temperament only when
the memory is empty. -/
theorem reference_memory_capture_resume (s : PolySynth) (r1 r2 r3 : ℕ)
    (n : ℤ) :
    (∀ s1 ri, releaseTargets s.voices n none ≠ [] →
      getReferenceVoice s r1 = (some ri, s1) →
      (∃ j ∈ releaseTargets s.voices n none,
        (s.voices.getD j default).midiNote =
          (s.voices.getD ri default).midiNote) →
      (noteOff s r1 r2 r3 n).1.lastBassFrequency =
        some (applyCentsOffset ((s.voices.getD ri default).frequency)
          (s.pitchBendAmount * s.pitchBendRange)) ∧
      (noteOff s r1 r2 r3 n).1.lastBassMidiNote =
        some ((s.voices.getD ri default).midiNote)) ∧
    (∀ rand vel, (∀ v ∈ s.voices, v.isActive = false) →
      (∀ f ln, s.lastBassFrequency = some f → s.lastBassMidiNote = some ln →
        (noteOn s rand n vel).2.frequency =
          (if n = ln then f else getJustFrequency f ln n)) ∧
      (s.lastBassFrequency = none → s.lastBassMidiNote = none →
        (noteOn s rand n vel).2.frequency = midiToFrequency n ∧
        (noteOn s rand n vel).2.usedStoredReference = false)) := by
  constructor
  · intro s1 ri hne href hwas
    obtain ⟨hlf, hln, hw⟩ := releaseNotePhase1_capture hne href hwas
    rw [show noteOff s r1 r2 r3 n = releaseNote s r1 r2 r3 n none from rfl,
      releaseNote_eq_dispatch]
    split
    · obtain ⟨hc1, hc2, -, -, -, -, -, -, -, -, -⟩ :=
        retuneToNewReference_const (releaseNotePhase1 s r1 r2 n none).1 r3
      exact ⟨hc1.trans hlf, hc2.trans hln⟩
    · exact ⟨hlf, hln⟩
  · intro rand vel hall
    constructor
    · intro f ln hf hln
      exact (noteOn_silent_mem hall hf hln).1
    · intro hf hln
      exact noteOn_silent_empty hall hf hln

theorem reference_memory_capture_resume_witness :
    releaseTargets memSynth1.voices 60 none ≠ [] ∧
    (noteOff memSynth1 0 0 0 60).1.lastBassFrequency =
      some (applyCentsOffset ((memSynth1.voices.getD 0 default).frequency)
        (memSynth1.pitchBendAmount * memSynth1.pitchBendRange)) := by
  have h1 : (getReferenceVoice memSynth1 0).1 = some 0 := by decide
  have href : getReferenceVoice memSynth1 0 =
      (some 0, (getReferenceVoice memSynth1 0).2) := by
    rw [← h1]
  refine ⟨by decide, ?_⟩
  exact ((reference_memory_capture_resume memSynth1 0 0 0 60).1
    (getReferenceVoice memSynth1 0).2 0 (by decide) href (by decide)).1

/-- C2 counterexample.  Instant mode, triad 60-64-67 tuned from 60; after
`noteOff 60` the new reference is the voice playing 64 (slot 1), which
remains active, but its own tuned-reference fields still record the old
reference 60 — they are not updated to the new reference, contradicting
the claim for the remaining active voice `R` itself. -/
theorem instant_retune_cex :
    ((noteOff instSynth3 0 0 0 60).1.voices.getD 1 default).isActive =
      true ∧
    (getReferenceVoice (noteOff instSynth3 0 0 0 60).1 0).1 = some 1 ∧
    ((noteOff instSynth3 0 0 0 60).1.voices.getD 1 default).midiNote = 64 ∧
    ((noteOff instSynth3 0 0 0 60).1.voices.getD 1
      default).tunedToBassNote = 60 := by
  exact ⟨by decide, by decide, by decide, by decide⟩

theorem retuneVoiceFun_instant {rv v : Voice} (hact : v.isActive = true)
    (hne : v.midiNote ≠ rv.midiNote) :
    (retuneVoiceFun rv "instant" v).frequency =
      getJustFrequency rv.frequency rv.midiNote v.midiNote ∧
    (retuneVoiceFun rv "instant" v).tunedToBassNote = rv.midiNote ∧
    (retuneVoiceFun rv "instant" v).tunedToBassFreq = rv.frequency := by
  rw [retuneVoiceFun_of_cond hact hne]
  refine ⟨?_, rfl, rfl⟩
  rw [show ({ v with
      frequency :=
        if ("instant" : String) = "instant" ∨ ("instant" : String) = "smooth"
        then getJustFrequency rv.frequency rv.midiNote v.midiNote
        else v.frequency
      tunedToBassNote := rv.midiNote
      tunedToBassFreq := rv.frequency } : Voice).frequency =
      (if ("instant" : String) = "instant" ∨
          ("instant" : String) = "smooth" then
        getJustFrequency rv.frequency rv.midiNote v.midiNote
      else v.frequency) from rfl]
  rw [if_pos (Or.inl rfl)]

/-- C2 (amended).  In Instant mode, when the release marked the reference
as gone (`wasReference`) and a new reference `R` is selected, the whole
pool is mapped through the per-voice retune function: every *other*
active voice receives the just frequency relative to `R` and has its
tuned-reference fields updated, while every voice sharing `R`'s note
number — in particular `R` itself — is left completely unchanged (stale
tuned fields, see the counterexample); the call returns exactly the
{note, newFrequency} pairs of the non-reference active voices, and an
empty list whenever the released voices did not include the reference. -/
theorem instant_retune_spec {s s4 s5 : PolySynth} {r1 r2 r3 R : ℕ} {n : ℤ}
    (hphase : releaseNotePhase1 s r1 r2 n none = (s4, true))
    (hmode : s4.retuneMode = "instant")
    (href : getReferenceVoice s4 r3 = (some R, s5)) :
    (noteOff s r1 r2 r3 n).1.voices =
      s4.voices.map (retuneVoiceFun (s4.voices.getD R default) "instant") ∧
    (∀ i, (s4.voices.getD i default).isActive = true →
      (s4.voices.getD i default).midiNote ≠
        (s4.voices.getD R default).midiNote →
      ((noteOff s r1 r2 r3 n).1.voices.getD i default).frequency =
        getJustFrequency (s4.voices.getD R default).frequency
          (s4.voices.getD R default).midiNote
          (s4.voices.getD i default).midiNote ∧
      ((noteOff s r1 r2 r3 n).1.voices.getD i default).tunedToBassNote =
        (s4.voices.getD R default).midiNote ∧
      ((noteOff s r1 r2 r3 n).1.voices.getD i default).tunedToBassFreq =
        (s4.voices.getD R default).frequency) ∧
    (∀ i, (s4.voices.getD i default).midiNote =
        (s4.voices.getD R default).midiNote →
      (noteOff s r1 r2 r3 n).1.voices.getD i default =
        s4.voices.getD i default) ∧
    (noteOff s r1 r2 r3 n).2 =
      (s4.voices.filter (fun v => v.isActive &&
        decide (v.midiNote ≠ (s4.voices.getD R default).midiNote))).map
        (fun v => (v.midiNote,
          getJustFrequency (s4.voices.getD R default).frequency
            (s4.voices.getD R default).midiNote v.midiNote)) ∧
    (∀ (t : PolySynth) (q1 q2 q3 : ℕ) (m : ℤ),
      (releaseNotePhase1 t q1 q2 m none).2 = false →
      (noteOff t q1 q2 q3 m).2 = []) := by
  have hs5 : s5 = (getReferenceVoice s4 r3).2 := by rw [href]
  have hs5v : s5.voices = s4.voices := by rw [hs5, getReferenceVoice_eq]
  have hs5m : s5.retuneMode = s4.retuneMode := by
    rw [hs5, getReferenceVoice_eq]
  have hnoteOff : noteOff s r1 r2 r3 n = retuneToNewReference s4 r3 := by
    rw [show noteOff s r1 r2 r3 n = releaseNote s r1 r2 r3 n none from rfl,
      releaseNote_eq_dispatch, hphase]
    have hcond : ((s4, true) : PolySynth × Bool).2 = true ∧
        ((s4, true) : PolySynth × Bool).1.retuneMode ≠ "static" := by
      refine ⟨rfl, ?_⟩
      intro hcon
      have hcon2 : s4.retuneMode = "static" := hcon
      rw [hmode] at hcon2
      exact absurd hcon2 (by decide)
    rw [if_pos hcond]
  have hret := retuneToNewReference_of_some href
  have hv : (noteOff s r1 r2 r3 n).1.voices =
      s4.voices.map (retuneVoiceFun (s4.voices.getD R default) "instant") := by
    rw [hnoteOff, hret]
    show s5.voices.map
      (retuneVoiceFun (s5.voices.getD R default) s5.retuneMode) = _
    rw [hs5v, hs5m, hmode]
  have hlist : (noteOff s r1 r2 r3 n).2 =
      (s4.voices.filter (fun v => v.isActive &&
        decide (v.midiNote ≠ (s4.voices.getD R default).midiNote))).map
        (fun v => (v.midiNote,
          getJustFrequency (s4.voices.getD R default).frequency
            (s4.voices.getD R default).midiNote v.midiNote)) := by
    rw [hnoteOff, hret]
    show (s5.voices.filter (fun v => v.isActive &&
        decide (v.midiNote ≠ (s5.voices.getD R default).midiNote))).map
        (fun v => (v.midiNote,
          getJustFrequency (s5.voices.getD R default).frequency
            (s5.voices.getD R default).midiNote v.midiNote)) = _
    rw [hs5v]
  refine ⟨hv, ?_, ?_, hlist, ?_⟩
  · intro i hact hne
    rw [hv, getD_map_voice _ (retuneVoiceFun_default _ _)]
    exact retuneVoiceFun_instant hact hne
  · intro i hnote
    rw [hv, getD_map_voice _ (retuneVoiceFun_default _ _)]
    exact retuneVoiceFun_of_skip (fun hc => hc.2 hnote)
  · intro t q1 q2 q3 m hfalse
    rw [show noteOff t q1 q2 q3 m = releaseNote t q1 q2 q3 m none from rfl,
      releaseNote_eq_dispatch]
    have hcond : ¬((releaseNotePhase1 t q1 q2 m none).2 = true ∧
        (releaseNotePhase1 t q1 q2 m none).1.retuneMode ≠ "static") := by
      rintro ⟨hc, -⟩
      rw [hfalse] at hc
      exact absurd hc (by decide)
    rw [if_neg hcond]

theorem instant_retune_spec_witness :
    (releaseNotePhase1 instSynth3 0 0 60 none).2 = true ∧
    (releaseNotePhase1 instSynth3 0 0 60 none).1.retuneMode = "instant" ∧
    (getReferenceVoice (releaseNotePhase1 instSynth3 0 0 60 none).1 0).1 =
      some 1 ∧
    (noteOff instSynth3 0 0 0 60).1.voices =
      (releaseNotePhase1 instSynth3 0 0 60 none).1.voices.map
        (retuneVoiceFun ((releaseNotePhase1 instSynth3 0 0 60
          none).1.voices.getD 1 default) "instant") := by
  have h2 : (releaseNotePhase1 instSynth3 0 0 60 none).2 = true := by decide
  have hphase : releaseNotePhase1 instSynth3 0 0 60 none =
      ((releaseNotePhase1 instSynth3 0 0 60 none).1, true) := by
    rw [← h2]
  have h1 : (getReferenceVoice
      (releaseNotePhase1 instSynth3 0 0 60 none).1 0).1 = some 1 := by decide
  have href : getReferenceVoice (releaseNotePhase1 instSynth3 0 0 60
        none).1 0 =
      (some 1, (getReferenceVoice
        (releaseNotePhase1 instSynth3 0 0 60 none).1 0).2) := by
    rw [← h1]
  exact ⟨h2, by decide, h1, (instant_retune_spec hphase (by decide) href).1⟩

end Intone

